import Mathlib

/-!
Verification development for `msh/utils/quant.py`: in-place int8 block
quantization of large weight tensors in a module tree, with hook-driven
dequantization around each module invocation.

Modelling conventions (shallow embedding):
* Tensors are modelled as 2-D lists of rows of exact rationals (`FTensor`);
  `torch.aminmax(dim=1, keepdim=True)` becomes per-row min/max.  Floating
  point is modelled by `ℚ` (exact arithmetic); `torch.round` is modelled by
  Mathlib's `round` (the claims proved below only use `|round x - x| ≤ 1/2`,
  which holds for either tie-breaking rule).
* `dtype` and `device` are opaque numeric tags carried by each tensor;
  `itemsize` is the byte width of the dtype.
* Fallible operations return `Option`/`Except`: `_quantize_weight_int8`
  returns `none` exactly when the Python function raises (a zero
  `block_size`, the shape-mismatch crash of the dead padding branch when
  `numel > block_size²` with a non-divisible `numel`, or an empty reduction
  dim for `aminmax`).
-/

namespace Quant

/-- A dense 2-D float tensor: a list of rows of rationals plus opaque
`dtype`/`device` tags and the byte width `itemsize` of its dtype. -/
structure FTensor where
  rows : List (List ℚ)
  dtype : ℕ
  itemsize : ℕ
  device : ℕ
deriving DecidableEq

/-- `Tensor.numel()`: total number of elements. -/
def FTensor.numel (t : FTensor) : ℕ := (t.rows.map List.length).sum

/-- `Tensor.size()`: the (2-D) shape `(number of rows, row length)`. -/
def FTensor.size (t : FTensor) : ℕ × ℕ := (t.rows.length, (t.rows.headD []).length)

/-- The column of a `(n, 1)` tensor (as produced by `aminmax(..., keepdim=True)`
and the derived per-row `scale`/`mean`): first entry of each row. -/
def FTensor.colVals (t : FTensor) : List ℚ := t.rows.map (fun r => r.headD 0)

/-- Per-row minimum, `weight.aminmax(dim=1).min` for one row. -/
def rowMin : List ℚ → ℚ
  | [] => 0
  | x :: xs => xs.foldl min x

/-- Per-row maximum, `weight.aminmax(dim=1).max` for one row. -/
def rowMax : List ℚ → ℚ
  | [] => 0
  | x :: xs => xs.foldl max x

/-- `.clamp(mn_val, mx_val)` with `mn_val = -128`, `mx_val = 127`. -/
def clampCode (z : ℤ) : ℤ := max (-128) (min 127 z)

/-- One row of the body of `_quantize_weight_int8` (lines 17-31 of
`quant.py`): `scale = (mx - mn)/255`; on the degenerate (`scale == 0`) rows
the `torch.where(invalid, zero, _)` selections force `mean = 0` and codes
`0`; otherwise `mean = mx - scale*127` and the codes are
`round((x - mean)/scale)` clamped to `[-128, 127]`. -/
def quantizeRow (r : List ℚ) : List ℤ × ℚ × ℚ :=
  let mn := rowMin r
  let mx := rowMax r
  let scale := (mx - mn) / 255
  if scale = 0 then
    (r.map (fun _ => (0 : ℤ)), scale, 0)
  else
    let mean := mx - scale * 127
    (r.map (fun x => clampCode (round ((x - mean) / scale))), scale, mean)

/-- `_quantize_weight_int8(weight, block_size)` (lines 10-31 of `quant.py`).

The source computes `blocks = ceil(numel / block_size)` and, when `numel`
is not a multiple of `block_size`, fills a `(block_size, block_size)`
scratch buffer — which crashes (shape mismatch on the copy) when
`numel > block_size * block_size` — and then *abandons it* (`weight =
weight`).  In every non-crashing case `aminmax(dim=1)` therefore runs on
the tensor exactly as given, with one `(scale, mean)` pair per *original*
row; no reshape to `(blocks, block_size)` ever happens.  `none` models the
raising executions (zero `block_size`, the scratch-buffer crash, an empty
row making `aminmax` reduce over an empty dim). -/
def _quantize_weight_int8 (weight : FTensor) (block_size : ℕ) :
    Option (List (List ℤ) × FTensor × FTensor) :=
  if block_size = 0 then none
  else if weight.numel ≠ ((weight.numel + block_size - 1) / block_size) * block_size ∧
      block_size * block_size < weight.numel then none
  else if weight.rows.any List.isEmpty then none
  else
    let q := weight.rows.map quantizeRow
    some (q.map (fun t => t.1),
      ⟨q.map (fun t => [t.2.1]), weight.dtype, weight.itemsize, weight.device⟩,
      ⟨q.map (fun t => [t.2.2]), weight.dtype, weight.itemsize, weight.device⟩)

/-- `torch.addcmul(mean, w, scale)` with the `(n,1)`-against-`(n,k)`
broadcast, flattened: element `j` of row `i` becomes
`mean_i + q8[i][j] * scale_i`. -/
def dequantFlat (q8 : List (List ℤ)) (scale mean : List ℚ) : List ℚ :=
  ((q8.zip (scale.zip mean)).map (fun t => t.1.map (fun (c : ℤ) => t.2.2 + (c : ℚ) * t.2.1))).flatten

/-- Fuel-indexed row splitter backing `chunkRows`. -/
def chunkRowsAux : ℕ → ℕ → List ℚ → List (List ℚ)
  | 0, _, _ => []
  | fuel + 1, cols, l => if l.isEmpty then [] else l.take cols :: chunkRowsAux fuel cols (l.drop cols)

/-- `.view(size)` for a 2-D `size`: split a flat list into rows of `cols`
elements (order preserving). -/
def chunkRows (cols : ℕ) (l : List ℚ) : List (List ℚ) := chunkRowsAux l.length cols l

/-- `_unquantize_weight_int8(q8, scale, mean, size)` (lines 34-39 of
`quant.py`): `w = q8.to(mean.dtype); addcmul(mean, w, scale, out=w);
w.view(-1)[:size.numel()].view(size)`.  The result carries `mean`'s dtype
and device. -/
def _unquantize_weight_int8 (q8 : List (List ℤ)) (scale mean : FTensor) (size : ℕ × ℕ) :
    FTensor :=
  ⟨chunkRows size.2 ((dequantFlat q8 scale.colVals mean.colVals).take (size.1 * size.2)),
   mean.dtype, mean.itemsize, mean.device⟩

/-! ### Basic facts about the per-row min/max -/

theorem foldl_min_le_init (l : List ℚ) (a : ℚ) : l.foldl min a ≤ a := by
  induction l generalizing a with
  | nil => exact le_refl a
  | cons b t ih => exact le_trans (ih (min a b)) (min_le_left a b)

theorem foldl_min_le_mem (l : List ℚ) (a x : ℚ) (hx : x ∈ l) : l.foldl min a ≤ x := by
  induction l generalizing a with
  | nil => cases hx
  | cons b t ih =>
    rcases List.mem_cons.1 hx with h | h
    · subst h; exact le_trans (foldl_min_le_init t (min a x)) (min_le_right a x)
    · exact ih (min a b) h

theorem init_le_foldl_max (l : List ℚ) (a : ℚ) : a ≤ l.foldl max a := by
  induction l generalizing a with
  | nil => exact le_refl a
  | cons b t ih => exact le_trans (le_max_left a b) (ih (max a b))

theorem mem_le_foldl_max (l : List ℚ) (a x : ℚ) (hx : x ∈ l) : x ≤ l.foldl max a := by
  induction l generalizing a with
  | nil => cases hx
  | cons b t ih =>
    rcases List.mem_cons.1 hx with h | h
    · subst h; exact le_trans (le_max_right a x) (init_le_foldl_max t (max a x))
    · exact ih (max a b) h

theorem rowMin_le (r : List ℚ) (x : ℚ) (hx : x ∈ r) : rowMin r ≤ x := by
  cases r with
  | nil => cases hx
  | cons a t =>
    rcases List.mem_cons.1 hx with h | h
    · subst h; exact foldl_min_le_init t x
    · exact foldl_min_le_mem t a x h

theorem le_rowMax (r : List ℚ) (x : ℚ) (hx : x ∈ r) : x ≤ rowMax r := by
  cases r with
  | nil => cases hx
  | cons a t =>
    rcases List.mem_cons.1 hx with h | h
    · subst h; exact init_le_foldl_max t x
    · exact mem_le_foldl_max t a x h

/-! ### The core affine round-trip bound -/

/-- Key numeric fact: with `scale = (mx - mn)/255 ≠ 0` and
`mean = mx - scale*127`, a value `x ∈ [mn, mx]` reconstructs from its
rounded, clamped code to within `scale/2`. -/
theorem affine_code_bound (mn mx x s m : ℚ) (hmn : mn ≤ x) (hmx : x ≤ mx)
    (hs : s = (mx - mn) / 255) (hm : m = mx - s * 127) (hne : s ≠ 0) :
    |m + (clampCode (round ((x - m) / s)) : ℚ) * s - x| ≤ s / 2 := by
  have hsub : (0 : ℚ) ≤ mx - mn := by linarith
  have hs0 : 0 < s := by
    rcases lt_or_eq_of_le hsub with h | h
    · rw [hs]; positivity
    · exfalso; exact hne (by rw [hs, ← h]; simp)
  set y : ℚ := (x - m) / s with hy
  have hxy : x = m + y * s := by field_simp [hy]
  have hy127 : y ≤ 127 := by
    rw [hy, div_le_iff hs0]
    have : mx = m + s * 127 := by linarith
    linarith
  have hy128 : (-128 : ℚ) ≤ y := by
    rw [hy, le_div_iff hs0]
    have h255 : mx - mn = 255 * s := by rw [hs]; ring
    linarith
  have hr127 : round y ≤ 127 := by
    calc round y ≤ round (127 : ℚ) := by
          rw [round_eq, round_eq]; exact Int.floor_le_floor (by linarith)
      _ = 127 := by
          have h : round ((127 : ℤ) : ℚ) = (127 : ℤ) := round_intCast 127
          simpa using h
  have hr128 : (-128 : ℤ) ≤ round y := by
    calc (-128 : ℤ) = round ((-128 : ℤ) : ℚ) :=
          (show round ((-128 : ℤ) : ℚ) = ((-128 : ℤ) : ℤ) from round_intCast (-128)).symm
      _ ≤ round y := by
          rw [round_eq, round_eq]
          exact Int.floor_le_floor (by push_cast; linarith)
  have hclamp : clampCode (round y) = round y := by
    unfold clampCode
    rw [min_eq_right hr127, max_eq_right hr128]
  rw [hclamp]
  have habs : |y - (round y : ℚ)| ≤ 1 / 2 := abs_sub_round y
  have hrw : m + (round y : ℚ) * s - x = -((y - round y) * s) := by
    rw [hxy]; ring
  rw [hrw, abs_neg, abs_mul, abs_of_pos hs0]
  have := mul_le_mul_of_nonneg_right habs (le_of_lt hs0)
  linarith

/-! ### Structure of the quantizer output -/

/-- Inversion of a successful `_quantize_weight_int8` run: the three outputs
are the per-row `quantizeRow` data and no row is empty. -/
theorem quantize_some_inv (W : FTensor) (bs : ℕ) (q8 : List (List ℤ)) (sc mn : FTensor)
    (hq : _quantize_weight_int8 W bs = some (q8, sc, mn)) :
    q8 = W.rows.map (fun r => (quantizeRow r).1) ∧
    sc = ⟨W.rows.map (fun r => [(quantizeRow r).2.1]), W.dtype, W.itemsize, W.device⟩ ∧
    mn = ⟨W.rows.map (fun r => [(quantizeRow r).2.2]), W.dtype, W.itemsize, W.device⟩ ∧
    ∀ r ∈ W.rows, r ≠ [] := by
  unfold _quantize_weight_int8 at hq
  split_ifs at hq with h1 h2 h3
  simp only [Option.some.injEq, Prod.mk.injEq] at hq
  obtain ⟨hqa, hqb, hqc⟩ := hq
  subst hqa; subst hqb; subst hqc
  refine ⟨?_, ?_, ?_, ?_⟩
  · rw [List.map_map]; rfl
  · rw [List.map_map]; rfl
  · rw [List.map_map]; rfl
  · intro r hr hnil
    rw [Bool.not_eq_true, List.any_eq_false] at h3
    have := h3 r hr
    simp [hnil] at this

theorem colVals_of_singletons (L : List (List ℚ)) (f : List ℚ → ℚ) (d i dev : ℕ) :
    FTensor.colVals ⟨L.map (fun r => [f r]), d, i, dev⟩ = L.map f := by
  simp [FTensor.colVals, List.map_map]

theorem dequantFlat_maps (L : List (List ℚ)) (f : List ℚ → List ℤ) (g h : List ℚ → ℚ) :
    dequantFlat (L.map f) (L.map g) (L.map h) =
      (L.map (fun r => (f r).map (fun (c : ℤ) => h r + (c : ℚ) * g r))).flatten := by
  unfold dequantFlat
  rw [List.zip_map' g h, List.zip_map' f (fun r => (g r, h r))]
  simp [List.map_map, Function.comp_def]

theorem flatten_length_uniform {α : Type} (L : List (List α)) (c : ℕ)
    (h : ∀ r ∈ L, r.length = c) : L.flatten.length = L.length * c := by
  induction L with
  | nil => simp
  | cons r t ih =>
    simp only [List.flatten_cons, List.length_append, List.length_cons]
    rw [h r (List.mem_cons_self r t), ih (fun r hr => h r (List.mem_cons_of_mem _ hr))]
    ring

theorem chunkRowsAux_flatten (c : ℕ) (hc : 0 < c) (L : List (List ℚ))
    (hL : ∀ r ∈ L, r.length = c) :
    ∀ fuel, L.flatten.length ≤ fuel → chunkRowsAux fuel c L.flatten = L := by
  induction L with
  | nil => intro fuel _; cases fuel <;> simp [chunkRowsAux]
  | cons r t ih =>
    intro fuel hfuel
    have hr : r.length = c := hL r (List.mem_cons_self r t)
    have hrne : r ≠ [] := by
      intro h; rw [h] at hr; simp at hr; omega
    cases fuel with
    | zero =>
      exfalso
      simp only [List.flatten_cons, List.length_append, Nat.le_zero] at hfuel
      have : r.length = 0 := by omega
      omega
    | succ fuel =>
      have hne : (r ++ t.flatten).isEmpty = false := by
        cases r with
        | nil => exact absurd rfl hrne
        | cons a b => simp
      simp only [List.flatten_cons, chunkRowsAux, hne, Bool.false_eq_true, if_false]
      rw [← hr, List.take_left, List.drop_left, hr]
      have hlen : t.flatten.length ≤ fuel := by
        simp only [List.flatten_cons, List.length_append] at hfuel
        omega
      rw [ih (fun x hx => hL x (List.mem_cons_of_mem _ hx)) fuel hlen]

theorem chunkRows_flatten (c : ℕ) (hc : 0 < c) (L : List (List ℚ))
    (hL : ∀ r ∈ L, r.length = c) : chunkRows c L.flatten = L :=
  chunkRowsAux_flatten c hc L hL _ (le_refl _)

theorem quantizeRow_scale (r : List ℚ) : (quantizeRow r).2.1 = (rowMax r - rowMin r) / 255 := by
  unfold quantizeRow
  dsimp only
  split <;> rfl

theorem quantizeRow_zero (r : List ℚ) (h : (rowMax r - rowMin r) / 255 = 0) :
    quantizeRow r = (r.map (fun _ => (0 : ℤ)), (rowMax r - rowMin r) / 255, 0) := by
  unfold quantizeRow
  dsimp only
  rw [if_pos h]

theorem quantizeRow_pos (r : List ℚ) (h : ¬(rowMax r - rowMin r) / 255 = 0) :
    quantizeRow r =
      (r.map (fun x => clampCode (round ((x - (rowMax r - (rowMax r - rowMin r) / 255 * 127)) /
          ((rowMax r - rowMin r) / 255)))),
        (rowMax r - rowMin r) / 255, rowMax r - (rowMax r - rowMin r) / 255 * 127) := by
  unfold quantizeRow
  dsimp only
  rw [if_neg h]

theorem quantizeRow_fst_length (r : List ℚ) : (quantizeRow r).1.length = r.length := by
  by_cases h : (rowMax r - rowMin r) / 255 = 0
  · rw [quantizeRow_zero r h]; simp
  · rw [quantizeRow_pos r h]; simp

theorem getD_map_of_lt {α β : Type} (f : α → β) (l : List α) (i : ℕ) (hi : i < l.length)
    (d : β) (d' : α) : (l.map f).getD i d = f (l.getD i d') := by
  rw [List.getD_eq_getElem?_getD, List.getElem?_map, List.getElem?_eq_getElem hi,
    List.getD_eq_getElem?_getD, List.getElem?_eq_getElem hi]
  rfl

/-- C1.  Round-trip bound for `dequantize ∘ quantize`: whenever
`_quantize_weight_int8` succeeds on a (uniform-width 2-D) weight, every
reconstructed element of `_unquantize_weight_int8` on the produced triple
is within `scale_row / 2` of the original for rows with nonzero stored
scale, and is exactly `0` — which is also the stored mean — for the
constant rows handled by the zero-scale fallback. -/
theorem dequantize_quantize_roundtrip_bound (W : FTensor) (bs : ℕ)
    (q8 : List (List ℤ)) (sc mn : FTensor)
    (hq : _quantize_weight_int8 W bs = some (q8, sc, mn))
    (huni : ∀ r ∈ W.rows, r.length = W.size.2) :
    ∀ i, i < W.rows.length → ∀ j, j < (W.rows.getD i []).length →
      (sc.colVals.getD i 0 ≠ 0 →
        |((_unquantize_weight_int8 q8 sc mn W.size).rows.getD i []).getD j 0 -
            (W.rows.getD i []).getD j 0| ≤ sc.colVals.getD i 0 / 2) ∧
      (sc.colVals.getD i 0 = 0 →
        ((_unquantize_weight_int8 q8 sc mn W.size).rows.getD i []).getD j 0 = 0 ∧
          mn.colVals.getD i 0 = 0) := by
  obtain ⟨hq8, hsc, hmn, hrne⟩ := quantize_some_inv W bs q8 sc mn hq
  subst hq8; subst hsc; subst hmn
  intro i hi j hj
  have hgi : W.rows.getD i [] = W.rows[i] := by
    rw [List.getD_eq_getElem?_getD, List.getElem?_eq_getElem hi]
    rfl
  rw [hgi] at hj ⊢
  have hrmem : W.rows[i] ∈ W.rows := List.getElem_mem hi
  have hrlen : (W.rows[i]).length = W.size.2 := huni _ hrmem
  have hc0 : 0 < W.size.2 := by omega
  -- the dequantized tensor, row by row
  have hDrows : (_unquantize_weight_int8 (W.rows.map fun r => (quantizeRow r).1)
        ⟨W.rows.map (fun r => [(quantizeRow r).2.1]), W.dtype, W.itemsize, W.device⟩
        ⟨W.rows.map (fun r => [(quantizeRow r).2.2]), W.dtype, W.itemsize, W.device⟩
        W.size).rows =
      W.rows.map (fun r =>
        ((quantizeRow r).1).map (fun (z : ℤ) => (quantizeRow r).2.2 + (z : ℚ) * (quantizeRow r).2.1)) := by
    unfold _unquantize_weight_int8
    rw [colVals_of_singletons, colVals_of_singletons, dequantFlat_maps]
    have hrowlen : ∀ x ∈ W.rows.map (fun r =>
        ((quantizeRow r).1).map (fun (z : ℤ) => (quantizeRow r).2.2 + (z : ℚ) * (quantizeRow r).2.1)),
        x.length = W.size.2 := by
      intro x hx
      obtain ⟨r, hr, rfl⟩ := List.mem_map.1 hx
      rw [List.length_map, quantizeRow_fst_length]
      exact huni r hr
    have hflatlen := flatten_length_uniform _ _ hrowlen
    rw [List.length_map] at hflatlen
    have hsz1 : W.size.1 = W.rows.length := rfl
    rw [List.take_of_length_le (by rw [hflatlen, hsz1])]
    exact chunkRows_flatten _ hc0 _ hrowlen
  rw [hDrows]
  have hDi : (W.rows.map (fun r =>
        ((quantizeRow r).1).map (fun (z : ℤ) => (quantizeRow r).2.2 + (z : ℚ) * (quantizeRow r).2.1))).getD i [] =
      ((quantizeRow W.rows[i]).1).map
        (fun (z : ℤ) => (quantizeRow W.rows[i]).2.2 + (z : ℚ) * (quantizeRow W.rows[i]).2.1) :=
    getD_map_of_lt _ _ i hi [] [] ▸ by rw [hgi]
  rw [colVals_of_singletons, colVals_of_singletons, hDi,
    getD_map_of_lt (fun r => (quantizeRow r).2.1) W.rows i hi 0 [],
    getD_map_of_lt (fun r => (quantizeRow r).2.2) W.rows i hi 0 [], hgi]
  by_cases hs : (rowMax W.rows[i] - rowMin W.rows[i]) / 255 = 0
  · -- degenerate (constant) row: everything is forced to zero
    rw [quantizeRow_zero _ hs]
    dsimp only
    constructor
    · intro hne; exact absurd hs hne
    · intro _
      refine ⟨?_, rfl⟩
      rw [List.map_map]
      rw [getD_map_of_lt _ _ j hj 0 0]
      simp
  · -- regular row: the affine bound applies
    constructor
    · intro _
      rw [quantizeRow_pos _ hs]
      dsimp only
      rw [List.map_map]
      rw [getD_map_of_lt _ _ j hj 0 0]
      have hxmem : (W.rows[i]).getD j 0 ∈ W.rows[i] := by
        rw [List.getD_eq_getElem?_getD, List.getElem?_eq_getElem hj]
        exact List.getElem_mem hj
      exact affine_code_bound (rowMin W.rows[i]) (rowMax W.rows[i]) ((W.rows[i]).getD j 0)
        _ _ (rowMin_le _ _ hxmem) (le_rowMax _ _ hxmem) rfl rfl hs
    · intro h0
      rw [quantizeRow_scale] at h0
      exact absurd h0 hs

/-- Witness for the round-trip bound: on the weight `[[1, 2], [3, 3]]` with
`block_size = 2`, element `(0,1)` reconstructs within `scale_0/2` and the
constant row `1` reconstructs to the stored mean `0`. -/
theorem dequantize_quantize_roundtrip_bound_witness :
    |((_unquantize_weight_int8 [[-128, 127], [0, 0]] ⟨[[1/255], [0]], 0, 4, 0⟩
        ⟨[[383/255], [0]], 0, 4, 0⟩ (FTensor.size ⟨[[1, 2], [3, 3]], 0, 4, 0⟩)).rows.getD 0 []).getD 1 0 -
        (([[1, 2], [3, 3]] : List (List ℚ)).getD 0 []).getD 1 0| ≤
      (FTensor.colVals ⟨[[1/255], [0]], 0, 4, 0⟩).getD 0 0 / 2 ∧
    (((_unquantize_weight_int8 [[-128, 127], [0, 0]] ⟨[[1/255], [0]], 0, 4, 0⟩
        ⟨[[383/255], [0]], 0, 4, 0⟩ (FTensor.size ⟨[[1, 2], [3, 3]], 0, 4, 0⟩)).rows.getD 1 []).getD 0 0 = 0 ∧
      (FTensor.colVals ⟨[[383/255], [0]], 0, 4, 0⟩).getD 1 0 = 0) := by
  constructor
  · exact (dequantize_quantize_roundtrip_bound ⟨[[1, 2], [3, 3]], 0, 4, 0⟩ 2
      [[-128, 127], [0, 0]] ⟨[[1/255], [0]], 0, 4, 0⟩ ⟨[[383/255], [0]], 0, 4, 0⟩
      (by with_unfolding_all rfl) (by decide) 0 (by decide) 1 (by decide)).1
      (by norm_num [FTensor.colVals])
  · exact (dequantize_quantize_roundtrip_bound ⟨[[1, 2], [3, 3]], 0, 4, 0⟩ 2
      [[-128, 127], [0, 0]] ⟨[[1/255], [0]], 0, 4, 0⟩ ⟨[[383/255], [0]], 0, 4, 0⟩
      (by with_unfolding_all rfl) (by decide) 1 (by decide) 0 (by decide)).2
      (by with_unfolding_all rfl)

/-- C2 (code bug evidence).  The quantizer performs no padding and no
reshape to `(num_blocks, block_size)`: quantizing the `(1,3)` weight
`[[1,2,3]]` with `block_size = 2` produces codes of the *original* shape
`(1,3)` — `3` elements, although `ceil(3/2)*2 = 4` — and a scale/mean of
shape `(1,1)` (one per original row), with min/max taken over the whole
original row. -/
theorem quantize_no_padding_no_reshape :
    _quantize_weight_int8 ⟨[[1, 2, 3]], 0, 4, 0⟩ 2 =
      some ([[-128, 0, 127]], ⟨[[2/255]], 0, 4, 0⟩, ⟨[[511/255]], 0, 4, 0⟩) ∧
    ([[-128, 0, 127]] : List (List ℤ)).flatten.length = 3 ∧
    (((3 : ℕ) + 2 - 1) / 2) * 2 = 4 := by
  refine ⟨by with_unfolding_all rfl, by decide, by decide⟩

/-! ### Modules, attributes and the quantized-parameter handle

Modules are opaque external entities identified by a numeric identity.
A module's dynamic attribute set is an association list (Python keeps
insertion order and never holds duplicate keys).  Weak references are
modelled by an `alive` set: dereferencing the identity of a destroyed
module fails, and the two weak registries self-prune on destruction. -/

/-- A module attribute value: a float tensor (plain weights, `_scale`,
`_mean`) or an int8 code tensor (`_q8`), the latter carrying its device. -/
inductive AVal where
  | f (t : FTensor)
  | q (rows : List (List ℤ)) (device : ℕ)
deriving DecidableEq

/-- Opaque dtype tag for `torch.int8`. -/
def int8_dtype : ℕ := 8

/-- `tensor.size()` of an attribute value. -/
def AVal.asize : AVal → ℕ × ℕ
  | .f t => t.size
  | .q rows _ => (rows.length, (rows.headD []).length)

/-- `tensor.dtype` of an attribute value. -/
def AVal.adtype : AVal → ℕ
  | .f t => t.dtype
  | .q _ _ => int8_dtype

/-- `tensor.device` of an attribute value. -/
def AVal.adevice : AVal → ℕ
  | .f t => t.device
  | .q _ dev => dev

/-- `getattr`-style lookup in an attribute map (first binding wins). -/
def lookupA {α : Type} : List (String × α) → String → Option α
  | [], _ => none
  | (k, v) :: rest, n => if k = n then some v else lookupA rest n

/-- `setattr`: replace the first binding of the name in place, else append
(Python dict update-or-insert, insertion order preserving). -/
def setA {α : Type} : List (String × α) → String → α → List (String × α)
  | [], n, v => [(n, v)]
  | (k, w) :: rest, n, v => if k = n then (n, v) :: rest else (k, w) :: setA rest n v

/-- `delattr` of the name.  Reachable attribute maps never hold duplicate
keys, so removing every binding coincides with Python `del`. -/
def delA {α : Type} (l : List (String × α)) (n : String) : List (String × α) :=
  l.filter (fun kv => kv.1 ≠ n)

/-- `_QuantizedParam` (lines 42-46 of `quant.py`): weak reference to the
owning module (its identity), the weight's attribute name, and the
remembered original shape. -/
structure _QuantizedParam where
  _module : ℕ
  name : String
  size : ℕ × ℕ
deriving DecidableEq

/-- Global state: module liveness, per-module attribute maps, the two
process-wide weak registries of `quant.py` (lines 96-97) and the hook lists
installed on each module (each installed hook closes over its collected
handle list). -/
structure Sys where
  alive : List ℕ
  attrs : ℕ → List (String × AVal)
  params_registry : ℕ → Option (List (String × _QuantizedParam))
  quantized_registry : List ℕ
  pre_hooks : ℕ → List (List _QuantizedParam)
  post_hooks : ℕ → List (List _QuantizedParam)

/-- `setattr(module, name, value)`. -/
def Sys.setAttr (s : Sys) (m : ℕ) (n : String) (v : AVal) : Sys :=
  { s with attrs := fun m' => if m' = m then setA (s.attrs m) n v else s.attrs m' }

/-- `delattr(module, name)` (presence is checked by the callers). -/
def Sys.delAttr (s : Sys) (m : ℕ) (n : String) : Sys :=
  { s with attrs := fun m' => if m' = m then delA (s.attrs m) n else s.attrs m' }

/-- `_QuantizedParam.module` (lines 48-53): dereference the weak reference;
raises `RuntimeError("Module is gone but we are still here.")` when the
owning module has been destroyed. -/
def _QuantizedParam.moduleGet (p : _QuantizedParam) (s : Sys) : Except String ℕ :=
  if p._module ∈ s.alive then .ok p._module
  else .error "Module is gone but we are still here."

/-- `self.mean` (lines 63-65): `getattr(self.module, self.name + '_mean')`. -/
def _QuantizedParam.meanT (p : _QuantizedParam) (s : Sys) : Except String FTensor := do
  let m ← p.moduleGet s
  match lookupA (s.attrs m) (p.name ++ "_mean") with
  | some (.f t) => .ok t
  | _ => .error "AttributeError"

/-- `self.scale` (lines 67-69). -/
def _QuantizedParam.scaleT (p : _QuantizedParam) (s : Sys) : Except String FTensor := do
  let m ← p.moduleGet s
  match lookupA (s.attrs m) (p.name ++ "_scale") with
  | some (.f t) => .ok t
  | _ => .error "AttributeError"

/-- `self.q8` (lines 71-73). -/
def _QuantizedParam.q8T (p : _QuantizedParam) (s : Sys) :
    Except String (List (List ℤ) × ℕ) := do
  let m ← p.moduleGet s
  match lookupA (s.attrs m) (p.name ++ "_q8") with
  | some (.q rows dev) => .ok (rows, dev)
  | _ => .error "AttributeError"

/-- `self.dtype` (lines 55-57): the stored mean's dtype. -/
def _QuantizedParam.dtypeGet (p : _QuantizedParam) (s : Sys) : Except String ℕ := do
  let t ← p.meanT s
  .ok t.dtype

/-- `self.device` (lines 59-61): the stored mean's device. -/
def _QuantizedParam.deviceGet (p : _QuantizedParam) (s : Sys) : Except String ℕ := do
  let t ← p.meanT s
  .ok t.device

/-- `quantize_` (lines 75-80): read the live weight, quantize it and store
the triple as three new parameters suffixed `_q8`/`_scale`/`_mean` (the
plain attribute is not removed). -/
def _QuantizedParam.quantize_ (p : _QuantizedParam) (s : Sys) (block_size : ℕ) :
    Except String Sys := do
  let m ← p.moduleGet s
  match lookupA (s.attrs m) p.name with
  | none => .error "AttributeError"
  | some (.q _ _) => .error "TypeError"
  | some (.f w) =>
    match _quantize_weight_int8 w block_size with
    | none => .error "RuntimeError"
    | some (q8, sc, mn) =>
      .ok (((s.setAttr m (p.name ++ "_q8") (.q q8 w.device)).setAttr m
          (p.name ++ "_scale") (.f sc)).setAttr m (p.name ++ "_mean") (.f mn))

/-- `unquantized_value` (lines 82-84). -/
def _QuantizedParam.unquantized_value (p : _QuantizedParam) (s : Sys) :
    Except String FTensor := do
  let q8 ← p.q8T s
  let sc ← p.scaleT s
  let mn ← p.meanT s
  .ok (_unquantize_weight_int8 q8.1 sc mn p.size)

/-- `unquantize_` (lines 86-90): no-op when the plain attribute is already
present, otherwise reconstruct from the stored triple and install it. -/
def _QuantizedParam.unquantize_ (p : _QuantizedParam) (s : Sys) : Except String Sys := do
  let m ← p.moduleGet s
  if (lookupA (s.attrs m) p.name).isSome then .ok s
  else do
    let w ← p.unquantized_value s
    .ok (s.setAttr m p.name (.f w))

/-- `flush_unquantized_` (lines 92-93): `delattr` the plain attribute —
raises `AttributeError` when it is absent. -/
def _QuantizedParam.flush_unquantized_ (p : _QuantizedParam) (s : Sys) :
    Except String Sys := do
  let m ← p.moduleGet s
  match lookupA (s.attrs m) p.name with
  | some _ => .ok (s.delAttr m p.name)
  | none => .error "AttributeError"

/-- `named_parameters(recurse=False)` snapshot: the float-tensor attributes
of the module, in attribute order (freshly traversed modules hold their
weights as plain float parameters). -/
def floatEntries (l : List (String × AVal)) : List (String × FTensor) :=
  l.filterMap (fun kv => match kv.2 with | .f t => some (kv.1, t) | .q _ _ => none)

/-- `weight.numel() * weight.dtype.itemsize / 1e6` (line 125). -/
def entrySizeMB (w : FTensor) : ℚ := ((w.numel * w.itemsize : ℕ) : ℚ) / 1000000

/-- The inner loop of `quantize_module_int8_` (lines 124-133): one pass over
a single child's `named_parameters(recurse=False)` snapshot, skipping any
weight whose size in MB is strictly below `min_size_mb`, and
quantize-then-flush for the rest, appending the fresh handle to `params`
and recording it in `child_params`.  Note `param.quantize_()` (line 130)
uses its *default* `block_size = 256`: the orchestrator's own `block_size`
argument is never forwarded. -/
def processParams (child : ℕ) (min_size_mb : ℚ) :
    Sys → List (String × FTensor) → List _QuantizedParam →
    List (String × _QuantizedParam) →
    Except String (Sys × List _QuantizedParam × List (String × _QuantizedParam))
  | s, [], params, child_params => .ok (s, params, child_params)
  | s, (name, weight) :: rest, params, child_params =>
    if entrySizeMB weight < min_size_mb then
      processParams child min_size_mb s rest params child_params
    else
      let param : _QuantizedParam := ⟨child, name, weight.size⟩
      do
        let s1 ← param.quantize_ s 256
        let s2 ← param.flush_unquantized_ s1
        processParams child min_size_mb s2 rest (params ++ [param])
          (setA child_params name param)

/-- The traversal loop of `quantize_module_int8_` (lines 113-134) over the
`module.modules()` sequence: skip children already in `seen`; for a child
already in the module-to-handles registry (quantized by an earlier,
separate orchestration call) extend `params` with its existing handles and
continue; otherwise process the child's own parameters and record its new
registry entry (line 134). -/
def processChildren (min_size_mb : ℚ) :
    Sys → List ℕ → List ℕ → List _QuantizedParam →
    Except String (Sys × List _QuantizedParam)
  | s, [], _, params => .ok (s, params)
  | s, child :: rest, seen, params =>
    if child ∈ seen then processChildren min_size_mb s rest seen params
    else
      match s.params_registry child with
      | some entry =>
        processChildren min_size_mb s rest seen (params ++ entry.map (fun kv => kv.2))
      | none => do
        let (s1, params1, child_params) ←
          processParams child min_size_mb s (floatEntries (s.attrs child)) params []
        processChildren min_size_mb
          { s1 with params_registry := fun m =>
              if m = child then some child_params else s1.params_registry m }
          rest (child :: seen) params1

/-- `quantize_module_int8_(module, min_size_mb=1., block_size=256)` (lines
100-138).  `modulesList` supplies the host framework's `module.modules()`
traversal (torch yields each distinct submodule exactly once even when it
is reachable through several parents; the code additionally keeps its own
`seen` set).  The returned `Option ℕ` is the Python return value: `none`
for the already-orchestrated early-return path (line 102, a bare `return`),
`some module` (line 138) otherwise. -/
def quantize_module_int8_ (modulesList : ℕ → List ℕ) (s : Sys) (module : ℕ)
    (min_size_mb : ℚ) (block_size : ℕ) : Except String (Sys × Option ℕ) :=
  if module ∈ s.quantized_registry then .ok (s, none)
  else do
    let (s1, params) ← processChildren min_size_mb s (modulesList module) [] []
    .ok ({ s1 with
        pre_hooks := fun m => if m = module then s1.pre_hooks m ++ [params] else s1.pre_hooks m,
        post_hooks := fun m => if m = module then s1.post_hooks m ++ [params] else s1.post_hooks m,
        quantized_registry := s1.quantized_registry ++ [module] },
      some module)

/-- The installed `pre_hook` (lines 105-107): `unquantize_` every collected
handle, in order. -/
def runPreHook : Sys → List _QuantizedParam → Except String Sys
  | s, [] => .ok s
  | s, p :: rest => do runPreHook (← p.unquantize_ s) rest

/-- The installed `post_hook` (lines 109-111): `flush_unquantized_` every
collected handle, in order. -/
def runPostHook : Sys → List _QuantizedParam → Except String Sys
  | s, [] => .ok s
  | s, p :: rest => do runPostHook (← p.flush_unquantized_ s) rest

/-- `get_size_dtype_device(module, name)` (lines 140-151): try the live
attribute first; on `AttributeError` consult the module-to-handles registry
and answer from the handle; otherwise re-raise. -/
def get_size_dtype_device (s : Sys) (module : ℕ) (name : String) :
    Except String ((ℕ × ℕ) × ℕ × ℕ) :=
  match lookupA (s.attrs module) name with
  | some v => .ok (v.asize, v.adtype, v.adevice)
  | none =>
    match s.params_registry module with
    | some params =>
      match lookupA params name with
      | some p => do
        let d ← p.dtypeGet s
        let dev ← p.deviceGet s
        .ok (p.size, d, dev)
      | none => .error "AttributeError"
    | none => .error "AttributeError"

/-- Destruction of an externally-owned module: the weak reference dies and
both weak registries self-prune their entries (the attribute storage of a
dead module is unreachable; every handle operation checks liveness first). -/
def destroyModule (s : Sys) (m : ℕ) : Sys :=
  { s with alive := s.alive.filter (fun x => x ≠ m),
           params_registry := fun m' => if m' = m then none else s.params_registry m',
           quantized_registry := s.quantized_registry.filter (fun x => x ≠ m) }

/-! ### Association-list and string-key lemmas -/

theorem lookupA_setA {α : Type} (l : List (String × α)) (k n : String) (v : α) :
    lookupA (setA l k v) n = if k = n then some v else lookupA l n := by
  induction l with
  | nil => simp [setA, lookupA]
  | cons kv rest ih =>
    obtain ⟨k', w⟩ := kv
    by_cases hk : k' = k
    · subst hk
      simp only [setA, if_pos rfl, lookupA]
      by_cases hn : k' = n
      · subst hn; simp
      · simp [hn]
    · simp only [setA, if_neg hk, lookupA]
      by_cases hn : k' = n
      · subst hn
        have : ¬ k = k' := fun h => hk h.symm
        simp [this]
      · simp [hn, ih]

theorem lookupA_delA {α : Type} (l : List (String × α)) (k n : String) :
    lookupA (delA l k) n = if k = n then none else lookupA l n := by
  induction l with
  | nil => simp [delA, lookupA]
  | cons kv rest ih =>
    obtain ⟨k', w⟩ := kv
    simp only [delA] at ih ⊢
    rw [List.filter_cons]
    by_cases hk : k' = k
    · rw [show (decide ¬((k', w).1 = k)) = false by simp [hk]]
      simp only [Bool.false_eq_true, if_false, ih]
      by_cases hn : k = n
      · simp [hn]
      · have hk'n : ¬ k' = n := by rw [hk]; exact hn
        simp [hn, lookupA, hk'n]
    · rw [show (decide ¬((k', w).1 = k)) = true by simp [hk]]
      simp only [if_true]
      show lookupA ((k', w) :: List.filter _ rest) n = _
      by_cases hn : k' = n
      · subst hn
        rw [if_neg (fun h : k = k' => hk h.symm)]
        simp [lookupA]
      · simp only [lookupA, if_neg hn, ih]

theorem lookupA_eq_none_of_not_mem {α : Type} (l : List (String × α)) (n : String)
    (h : n ∉ l.map Prod.fst) : lookupA l n = none := by
  induction l with
  | nil => rfl
  | cons kv rest ih =>
    obtain ⟨k, v⟩ := kv
    simp only [List.map_cons, List.mem_cons] at h
    push_neg at h
    simp only [lookupA, if_neg (fun hh : k = n => h.1 hh.symm)]
    exact ih h.2

/-- The three reserved suffixes end in pairwise different characters, so
cross-suffix attribute keys can never collide, for any weight names. -/
theorem append_q8_ne_append_scale (a b : String) : a ++ "_q8" ≠ b ++ "_scale" := by
  intro h
  have hd : (a ++ "_q8").data = (b ++ "_scale").data := by rw [h]
  rw [String.data_append, String.data_append] at hd
  have h2 := congrArg (fun l => l.reverse.head?) hd
  simp only [show ("_q8" : String).data = ['_','q','8'] from rfl,
    show ("_scale" : String).data = ['_','s','c','a','l','e'] from rfl,
    List.reverse_append] at h2
  simp at h2

theorem append_q8_ne_append_mean (a b : String) : a ++ "_q8" ≠ b ++ "_mean" := by
  intro h
  have hd : (a ++ "_q8").data = (b ++ "_mean").data := by rw [h]
  rw [String.data_append, String.data_append] at hd
  have h2 := congrArg (fun l => l.reverse.head?) hd
  simp only [show ("_q8" : String).data = ['_','q','8'] from rfl,
    show ("_mean" : String).data = ['_','m','e','a','n'] from rfl,
    List.reverse_append] at h2
  simp at h2

theorem append_scale_ne_append_mean (a b : String) : a ++ "_scale" ≠ b ++ "_mean" := by
  intro h
  have hd : (a ++ "_scale").data = (b ++ "_mean").data := by rw [h]
  rw [String.data_append, String.data_append] at hd
  have h2 := congrArg (fun l => l.reverse.head?) hd
  simp only [show ("_scale" : String).data = ['_','s','c','a','l','e'] from rfl,
    show ("_mean" : String).data = ['_','m','e','a','n'] from rfl,
    List.reverse_append] at h2
  simp at h2

theorem append_right_cancel_str (a b s : String) (h : a ++ s = b ++ s) : a = b := by
  have hd : (a ++ s).data = (b ++ s).data := by rw [h]
  rw [String.data_append, String.data_append] at hd
  exact String.ext (List.append_cancel_right hd)

/-- Well-formedness of a collection of weight names: no duplicates, and no
name equals another (or its own) name with a reserved suffix appended.
Ordinary weight names (`weight`, `bias`, ...) satisfy this; it rules out
pathologies such as a weight literally named `weight_q8` next to `weight`. -/
abbrev SaneNames (names : List String) : Prop :=
  names.Nodup ∧ ∀ a ∈ names, ∀ b ∈ names,
    a ≠ b ++ "_q8" ∧ a ≠ b ++ "_scale" ∧ a ≠ b ++ "_mean"

theorem SaneNames_cons {n : String} {names : List String} (h : SaneNames (n :: names)) :
    SaneNames names :=
  ⟨(List.nodup_cons.1 h.1).2, fun a ha b hb =>
    h.2 a (List.mem_cons_of_mem _ ha) b (List.mem_cons_of_mem _ hb)⟩

/-! ### Derived descriptions of one orchestration pass -/

/-- The entries that pass the size filter (`size < min_size_mb` skips). -/
def eligibleEntries (min_size_mb : ℚ) (entries : List (String × FTensor)) :
    List (String × FTensor) :=
  entries.filter (fun e => ¬ entrySizeMB e.2 < min_size_mb)

/-- The handle created for one eligible entry (line 129). -/
def handleOf (child : ℕ) (e : String × FTensor) : _QuantizedParam :=
  ⟨child, e.1, e.2.size⟩

/-- The registry entry recorded for a freshly processed child (line 134). -/
def regEntryOf (child : ℕ) (min_size_mb : ℚ) (entries : List (String × FTensor)) :
    List (String × _QuantizedParam) :=
  (eligibleEntries min_size_mb entries).map (fun e => (e.1, handleOf child e))

/-- All attribute keys written or removed while processing `entries`. -/
def touchedKeys (min_size_mb : ℚ) (entries : List (String × FTensor)) : List String :=
  (eligibleEntries min_size_mb entries).flatMap
    (fun e => [e.1, e.1 ++ "_q8", e.1 ++ "_scale", e.1 ++ "_mean"])

/-! ### Success characterisations of the handle operations -/

@[simp] theorem exceptBind_ok {ε α β : Type} (a : α) (f : α → Except ε β) :
    (Except.ok a >>= f : Except ε β) = f a := rfl

@[simp] theorem exceptBind_error {ε α β : Type} (e : ε) (f : α → Except ε β) :
    ((Except.error e : Except ε α) >>= f) = .error e := rfl

theorem moduleGet_ok (p : _QuantizedParam) (s : Sys) (h : p._module ∈ s.alive) :
    p.moduleGet s = .ok p._module := by
  unfold _QuantizedParam.moduleGet
  rw [if_pos h]

theorem quantize__ok (p : _QuantizedParam) (s : Sys) (bs : ℕ) (w : FTensor)
    (q8 : List (List ℤ)) (sc mn : FTensor)
    (halive : p._module ∈ s.alive)
    (hw : lookupA (s.attrs p._module) p.name = some (.f w))
    (hq : _quantize_weight_int8 w bs = some (q8, sc, mn)) :
    p.quantize_ s bs = .ok (((s.setAttr p._module (p.name ++ "_q8") (.q q8 w.device)).setAttr
      p._module (p.name ++ "_scale") (.f sc)).setAttr p._module (p.name ++ "_mean") (.f mn)) := by
  unfold _QuantizedParam.quantize_
  rw [moduleGet_ok p s halive]
  simp [hw, hq]

theorem flush__ok (p : _QuantizedParam) (s : Sys) (v : AVal)
    (halive : p._module ∈ s.alive)
    (hv : lookupA (s.attrs p._module) p.name = some v) :
    p.flush_unquantized_ s = .ok (s.delAttr p._module p.name) := by
  unfold _QuantizedParam.flush_unquantized_
  rw [moduleGet_ok p s halive]
  simp [hv]

theorem unquantize__present (p : _QuantizedParam) (s : Sys) (v : AVal)
    (halive : p._module ∈ s.alive)
    (hv : lookupA (s.attrs p._module) p.name = some v) :
    p.unquantize_ s = .ok s := by
  unfold _QuantizedParam.unquantize_
  rw [moduleGet_ok p s halive]
  simp [hv]

theorem unquantized_value_ok (p : _QuantizedParam) (s : Sys)
    (q8 : List (List ℤ)) (dev : ℕ) (sc mn : FTensor)
    (halive : p._module ∈ s.alive)
    (hq8 : lookupA (s.attrs p._module) (p.name ++ "_q8") = some (.q q8 dev))
    (hsc : lookupA (s.attrs p._module) (p.name ++ "_scale") = some (.f sc))
    (hmn : lookupA (s.attrs p._module) (p.name ++ "_mean") = some (.f mn)) :
    p.unquantized_value s = .ok (_unquantize_weight_int8 q8 sc mn p.size) := by
  unfold _QuantizedParam.unquantized_value _QuantizedParam.q8T _QuantizedParam.scaleT
    _QuantizedParam.meanT
  rw [moduleGet_ok p s halive]
  simp [hq8, hsc, hmn]

/-- Two sane weight names generate fully disjoint attribute-key families. -/
theorem family_disjoint (a b : String) (hab : a ≠ b)
    (h1 : a ≠ b ++ "_q8") (h2 : a ≠ b ++ "_scale") (h3 : a ≠ b ++ "_mean")
    (h4 : b ≠ a ++ "_q8") (h5 : b ≠ a ++ "_scale") (h6 : b ≠ a ++ "_mean") :
    ∀ x ∈ [a, a ++ "_q8", a ++ "_scale", a ++ "_mean"],
      ∀ y ∈ [b, b ++ "_q8", b ++ "_scale", b ++ "_mean"], x ≠ y := by
  intro x hx y hy
  simp only [List.mem_cons, List.not_mem_nil, or_false] at hx hy
  rcases hx with rfl | rfl | rfl | rfl <;> rcases hy with rfl | rfl | rfl | rfl <;>
    first
      | exact hab
      | exact h1
      | exact h2
      | exact h3
      | exact fun h => h4 h.symm
      | exact fun h => h5 h.symm
      | exact fun h => h6 h.symm
      | exact fun h => hab (append_right_cancel_str a b _ h)
      | exact append_q8_ne_append_scale a b
      | exact append_q8_ne_append_mean a b
      | exact append_scale_ne_append_mean a b
      | exact fun h => append_q8_ne_append_scale b a h.symm
      | exact fun h => append_q8_ne_append_mean b a h.symm
      | exact fun h => append_scale_ne_append_mean b a h.symm

/-- Lookup after the quantize-then-flush of one weight, at any key outside
that weight's family: unchanged. -/
theorem lookup_after_quantflush (A : List (String × AVal)) (n : String)
    (v1 v2 v3 : AVal) (k : String)
    (hk1 : k ≠ n) (hk2 : k ≠ n ++ "_q8") (hk3 : k ≠ n ++ "_scale") (hk4 : k ≠ n ++ "_mean") :
    lookupA (delA (setA (setA (setA A (n ++ "_q8") v1) (n ++ "_scale") v2)
      (n ++ "_mean") v3) n) k = lookupA A k := by
  rw [lookupA_delA, if_neg (fun h => hk1 h.symm), lookupA_setA,
    if_neg (fun h => hk4 h.symm), lookupA_setA, if_neg (fun h => hk3 h.symm),
    lookupA_setA, if_neg (fun h => hk2 h.symm)]

theorem mem_touchedKeys_iff (min_size_mb : ℚ) (entries : List (String × FTensor))
    (k : String) :
    k ∈ touchedKeys min_size_mb entries ↔ ∃ e ∈ eligibleEntries min_size_mb entries,
      k = e.1 ∨ k = e.1 ++ "_q8" ∨ k = e.1 ++ "_scale" ∨ k = e.1 ++ "_mean" := by
  simp [touchedKeys, List.mem_flatMap]

theorem eligible_sublist_mem {min_size_mb : ℚ} {entries : List (String × FTensor)}
    {e : String × FTensor} (h : e ∈ eligibleEntries min_size_mb entries) : e ∈ entries :=
  List.mem_of_mem_filter h

theorem unquantize__absent (p : _QuantizedParam) (s : Sys)
    (q8 : List (List ℤ)) (dev : ℕ) (sc mn : FTensor)
    (halive : p._module ∈ s.alive)
    (hnone : lookupA (s.attrs p._module) p.name = none)
    (hq8 : lookupA (s.attrs p._module) (p.name ++ "_q8") = some (.q q8 dev))
    (hsc : lookupA (s.attrs p._module) (p.name ++ "_scale") = some (.f sc))
    (hmn : lookupA (s.attrs p._module) (p.name ++ "_mean") = some (.f mn)) :
    p.unquantize_ s = .ok (s.setAttr p._module p.name
      (.f (_unquantize_weight_int8 q8 sc mn p.size))) := by
  unfold _QuantizedParam.unquantize_
  rw [moduleGet_ok p s halive]
  simp [hnone, unquantized_value_ok p s q8 dev sc mn halive hq8 hsc hmn]

theorem quantize__none (p : _QuantizedParam) (s : Sys) (bs : ℕ) (w : FTensor)
    (halive : p._module ∈ s.alive)
    (hw : lookupA (s.attrs p._module) p.name = some (.f w))
    (hq : _quantize_weight_int8 w bs = none) :
    p.quantize_ s bs = .error "RuntimeError" := by
  unfold _QuantizedParam.quantize_
  rw [moduleGet_ok p s halive]
  simp [hw, hq]

/-! ### The inner parameter loop, characterised -/

theorem processParams_spec (child : ℕ) (min_size_mb : ℚ)
    (entries : List (String × FTensor)) (s : Sys) (params : List _QuantizedParam)
    (cps : List (String × _QuantizedParam)) (s2 : Sys) (params2 : List _QuantizedParam)
    (cps2 : List (String × _QuantizedParam))
    (hrun : processParams child min_size_mb s entries params cps = .ok (s2, params2, cps2))
    (halive : child ∈ s.alive)
    (hsnap : ∀ e ∈ entries, lookupA (s.attrs child) e.1 = some (.f e.2))
    (hsane : SaneNames (entries.map Prod.fst)) :
    (s2.alive = s.alive ∧ s2.params_registry = s.params_registry ∧
      s2.quantized_registry = s.quantized_registry ∧
      s2.pre_hooks = s.pre_hooks ∧ s2.post_hooks = s.post_hooks) ∧
    (∀ m, m ≠ child → s2.attrs m = s.attrs m) ∧
    params2 = params ++ (eligibleEntries min_size_mb entries).map (handleOf child) ∧
    cps2 = (eligibleEntries min_size_mb entries).foldl
      (fun acc e => setA acc e.1 (handleOf child e)) cps ∧
    (∀ e ∈ eligibleEntries min_size_mb entries, ∃ q8 sc mn,
      _quantize_weight_int8 e.2 256 = some (q8, sc, mn) ∧
      lookupA (s2.attrs child) e.1 = none ∧
      lookupA (s2.attrs child) (e.1 ++ "_q8") = some (.q q8 e.2.device) ∧
      lookupA (s2.attrs child) (e.1 ++ "_scale") = some (.f sc) ∧
      lookupA (s2.attrs child) (e.1 ++ "_mean") = some (.f mn)) ∧
    (∀ k, k ∉ touchedKeys min_size_mb entries →
      lookupA (s2.attrs child) k = lookupA (s.attrs child) k) := by
  induction entries generalizing s params cps s2 params2 cps2 with
  | nil =>
    simp only [processParams, Except.ok.injEq, Prod.mk.injEq] at hrun
    obtain ⟨rfl, rfl, rfl⟩ := hrun
    refine ⟨⟨rfl, rfl, rfl, rfl, rfl⟩, fun m _ => rfl, by simp [eligibleEntries],
      by simp [eligibleEntries], by simp [eligibleEntries], fun k _ => rfl⟩
  | cons e rest ih =>
    obtain ⟨n, w⟩ := e
    have hmemn : n ∈ ((n, w) :: rest).map Prod.fst := by simp
    by_cases hsize : entrySizeMB w < min_size_mb
    · -- this weight is skipped by the size filter
      rw [show processParams child min_size_mb s ((n, w) :: rest) params cps =
          processParams child min_size_mb s rest params cps from by
        simp [processParams, hsize]] at hrun
      have hres := ih s params cps s2 params2 cps2 hrun halive
        (fun e he => hsnap e (List.mem_cons_of_mem _ he)) (SaneNames_cons hsane)
      have hel : eligibleEntries min_size_mb ((n, w) :: rest) =
          eligibleEntries min_size_mb rest := by
        simp [eligibleEntries, List.filter_cons, hsize]
      have htch : touchedKeys min_size_mb ((n, w) :: rest) =
          touchedKeys min_size_mb rest := by
        simp [touchedKeys, hel]
      rw [hel, htch]
      exact hres
    · -- this weight is quantized then flushed
      rw [show processParams child min_size_mb s ((n, w) :: rest) params cps =
          (do
            let s1 ← (⟨child, n, w.size⟩ : _QuantizedParam).quantize_ s 256
            let s1' ← (⟨child, n, w.size⟩ : _QuantizedParam).flush_unquantized_ s1
            processParams child min_size_mb s1' rest (params ++ [⟨child, n, w.size⟩])
              (setA cps n ⟨child, n, w.size⟩)) from by
        simp [processParams, hsize]] at hrun
      have hw : lookupA (s.attrs child) n = some (.f w) :=
        hsnap (n, w) (List.mem_cons_self _ _)
      cases hqw : _quantize_weight_int8 w 256 with
      | none =>
        rw [quantize__none ⟨child, n, w.size⟩ s 256 w halive hw hqw] at hrun
        simp at hrun
      | some tri =>
        obtain ⟨q8, sc, mn⟩ := tri
        rw [quantize__ok ⟨child, n, w.size⟩ s 256 w q8 sc mn halive hw hqw] at hrun
        simp only [exceptBind_ok] at hrun
        -- the per-name disequalities coming from sane naming
        have hself := hsane.2 n hmemn n hmemn
        have hlook1 : lookupA ((((s.setAttr child (n ++ "_q8") (.q q8 w.device)).setAttr child
            (n ++ "_scale") (.f sc)).setAttr child (n ++ "_mean") (.f mn)).attrs child) n =
            some (.f w) := by
          simp only [Sys.setAttr, if_pos rfl, if_true]
          rw [lookupA_setA, if_neg (fun h => hself.2.2 h.symm),
            lookupA_setA, if_neg (fun h => hself.2.1 h.symm),
            lookupA_setA, if_neg (fun h => hself.1 h.symm)]
          exact hw
        rw [flush__ok ⟨child, n, w.size⟩ (((s.setAttr child (n ++ "_q8") (.q q8 w.device)).setAttr
          child (n ++ "_scale") (.f sc)).setAttr child (n ++ "_mean") (.f mn)) (.f w)
          halive hlook1] at hrun
        simp only [exceptBind_ok] at hrun
        -- the state handed to the rest of the loop
        set sQF : Sys := ((((s.setAttr child (n ++ "_q8") (.q q8 w.device)).setAttr child
          (n ++ "_scale") (.f sc)).setAttr child (n ++ "_mean") (.f mn)).delAttr child n)
          with hsQF
        have hattrsQF : sQF.attrs child = delA (setA (setA (setA (s.attrs child)
            (n ++ "_q8") (.q q8 w.device)) (n ++ "_scale") (.f sc)) (n ++ "_mean") (.f mn)) n := by
          simp [hsQF, Sys.delAttr, Sys.setAttr]
        have hsnap' : ∀ e ∈ rest, lookupA (sQF.attrs child) e.1 = some (.f e.2) := by
          intro e he
          have hb : e.1 ∈ ((n, w) :: rest).map Prod.fst := by
            simp only [List.map_cons, List.mem_cons]
            exact Or.inr (List.mem_map.2 ⟨e, he, rfl⟩)
          have hset := hsane.2 e.1 hb n hmemn
          have hnn : e.1 ≠ n := by
            intro h
            have := (List.nodup_cons.1 hsane.1).1
            rw [← h] at this
            exact this (List.mem_map.2 ⟨e, he, rfl⟩)
          rw [hattrsQF, lookup_after_quantflush _ _ _ _ _ _ hnn hset.1 hset.2.1 hset.2.2]
          exact hsnap e (List.mem_cons_of_mem _ he)
        have hres := ih sQF (params ++ [⟨child, n, w.size⟩]) (setA cps n ⟨child, n, w.size⟩)
          s2 params2 cps2 hrun halive hsnap' (SaneNames_cons hsane)
        have hel : eligibleEntries min_size_mb ((n, w) :: rest) =
            (n, w) :: eligibleEntries min_size_mb rest := by
          simp [eligibleEntries, List.filter_cons, hsize]
        -- keys of the head entry are untouched by the rest of the loop
        have hheadfree : ∀ k ∈ [n, n ++ "_q8", n ++ "_scale", n ++ "_mean"],
            k ∉ touchedKeys min_size_mb rest := by
          intro k hk hmem
          rw [mem_touchedKeys_iff] at hmem
          obtain ⟨e, he, hcase⟩ := hmem
          have heb : e.1 ∈ ((n, w) :: rest).map Prod.fst := by
            simp only [List.map_cons, List.mem_cons]
            exact Or.inr (List.mem_map.2 ⟨e, eligible_sublist_mem he, rfl⟩)
          have hba := hsane.2 e.1 heb n hmemn
          have hab := hsane.2 n hmemn e.1 heb
          have hne : n ≠ e.1 := by
            intro h
            have := (List.nodup_cons.1 hsane.1).1
            rw [h] at this
            exact this (List.mem_map.2 ⟨e, eligible_sublist_mem he, rfl⟩)
          have hdisj := family_disjoint n e.1 hne hab.1 hab.2.1 hab.2.2
            hba.1 hba.2.1 hba.2.2 k hk
          rcases hcase with h | h | h | h <;>
            [exact hdisj e.1 (by simp) h;
             exact hdisj (e.1 ++ "_q8") (by simp) h;
             exact hdisj (e.1 ++ "_scale") (by simp) h;
             exact hdisj (e.1 ++ "_mean") (by simp) h]
        refine ⟨?_, ?_, ?_, ?_, ?_, ?_⟩
        · exact hres.1
        · intro m hm
          have h1 := hres.2.1 m hm
          have h2 : sQF.attrs m = s.attrs m := by
            simp [hsQF, Sys.delAttr, Sys.setAttr, if_neg hm]
          rw [h1, h2]
        · rw [hres.2.2.1, hel]
          simp [handleOf, List.append_assoc]
        · rw [hres.2.2.2.1, hel]
          rfl
        · intro e he
          rw [hel] at he
          rcases List.mem_cons.1 he with rfl | he'
          · refine ⟨q8, sc, mn, hqw, ?_, ?_, ?_, ?_⟩
            · rw [hres.2.2.2.2.2 _ (hheadfree _ (by simp)), hattrsQF,
                lookupA_delA, if_pos rfl]
            · rw [hres.2.2.2.2.2 _ (hheadfree _ (by simp)), hattrsQF,
                lookupA_delA, if_neg (fun h => hself.1 h), lookupA_setA,
                if_neg (fun h => append_q8_ne_append_mean n n h.symm), lookupA_setA,
                if_neg (fun h => append_q8_ne_append_scale n n h.symm), lookupA_setA,
                if_pos rfl]
            · rw [hres.2.2.2.2.2 _ (hheadfree _ (by simp)), hattrsQF,
                lookupA_delA, if_neg (fun h => hself.2.1 h), lookupA_setA,
                if_neg (fun h => append_scale_ne_append_mean n n h.symm), lookupA_setA,
                if_pos rfl]
            · rw [hres.2.2.2.2.2 _ (hheadfree _ (by simp)), hattrsQF,
                lookupA_delA, if_neg (fun h => hself.2.2 h), lookupA_setA,
                if_pos rfl]
          · exact hres.2.2.2.2.1 e he'
        · intro k hk
          have hk4 : k ∉ touchedKeys min_size_mb rest ∧ k ≠ n ∧ k ≠ n ++ "_q8" ∧
              k ≠ n ++ "_scale" ∧ k ≠ n ++ "_mean" := by
            rw [mem_touchedKeys_iff] at hk
            push_neg at hk
            constructor
            · intro hmem
              rw [mem_touchedKeys_iff] at hmem
              obtain ⟨e, he, hcase⟩ := hmem
              have he2 : e ∈ eligibleEntries min_size_mb ((n, w) :: rest) := by
                rw [hel]; exact List.mem_cons_of_mem _ he
              have hke := hk e he2
              rcases hcase with h | h | h | h
              · exact hke.1 h
              · exact hke.2.1 h
              · exact hke.2.2.1 h
              · exact hke.2.2.2 h
            · have hhead : (n, w) ∈ eligibleEntries min_size_mb ((n, w) :: rest) := by
                rw [hel]; exact List.mem_cons_self _ _
              exact ⟨(hk _ hhead).1, (hk _ hhead).2.1, (hk _ hhead).2.2.1, (hk _ hhead).2.2.2⟩
          rw [hres.2.2.2.2.2 k hk4.1, hattrsQF,
            lookup_after_quantflush _ _ _ _ _ _ hk4.2.1 hk4.2.2.1 hk4.2.2.2.1 hk4.2.2.2.2]

/-! ### The traversal loop, characterised -/

/-- Preconditions on a freshly traversed module: it is alive, its attribute
keys are duplicate-free (Python attribute dictionaries cannot hold
duplicates) and its weight names are sane. -/
abbrev FreshOK (s : Sys) (c : ℕ) : Prop :=
  c ∈ s.alive ∧ ((s.attrs c).map Prod.fst).Nodup ∧
    SaneNames ((floatEntries (s.attrs c)).map Prod.fst)

theorem floatEntries_fst_mem {l : List (String × AVal)} {e : String × FTensor}
    (h : e ∈ floatEntries l) : e.1 ∈ l.map Prod.fst := by
  obtain ⟨kv, hkv, hmatch⟩ := List.mem_filterMap.1 h
  cases hv : kv.2 with
  | f t =>
    rw [hv] at hmatch
    simp only [Option.some.injEq] at hmatch
    rw [← hmatch]
    exact List.mem_map.2 ⟨kv, hkv, rfl⟩
  | q rows dev => rw [hv] at hmatch; cases hmatch

theorem floatEntries_lookup (l : List (String × AVal))
    (hnd : (l.map Prod.fst).Nodup) :
    ∀ e ∈ floatEntries l, lookupA l e.1 = some (.f e.2) := by
  induction l with
  | nil => intro e he; cases he
  | cons kv rest ih =>
    obtain ⟨k, v⟩ := kv
    intro e he
    have hnd' := List.nodup_cons.1 hnd
    cases v with
    | f t =>
      simp only [floatEntries, List.filterMap_cons] at he
      rcases List.mem_cons.1 he with rfl | he'
      · simp [lookupA]
      · have hne : k ≠ e.1 := by
          intro h
          exact hnd'.1 (h ▸ floatEntries_fst_mem he')
        simp only [lookupA, if_neg hne]
        exact ih hnd'.2 e he'
    | q rows dev =>
      simp only [floatEntries, List.filterMap_cons] at he
      have hne : k ≠ e.1 := by
        intro h
        exact hnd'.1 (h ▸ floatEntries_fst_mem he)
      simp only [lookupA, if_neg hne]
      exact ih hnd'.2 e he

theorem setA_of_not_mem {α : Type} (l : List (String × α)) (k : String) (v : α)
    (h : k ∉ l.map Prod.fst) : setA l k v = l ++ [(k, v)] := by
  induction l with
  | nil => rfl
  | cons kv rest ih =>
    obtain ⟨k', w⟩ := kv
    simp only [List.map_cons, List.mem_cons] at h
    push_neg at h
    simp only [setA, if_neg (fun hh : k' = k => h.1 hh.symm), List.cons_append,
      List.cons.injEq, true_and]
    exact ih h.2

theorem foldl_setA_append (child : ℕ) (E : List (String × FTensor))
    (acc : List (String × _QuantizedParam))
    (hdisj : ∀ e ∈ E, e.1 ∉ acc.map Prod.fst) (hnd : (E.map Prod.fst).Nodup) :
    E.foldl (fun acc e => setA acc e.1 (handleOf child e)) acc =
      acc ++ E.map (fun e => (e.1, handleOf child e)) := by
  induction E generalizing acc with
  | nil => simp
  | cons e rest ih =>
    have hnd1 : (e.1 :: rest.map Prod.fst).Nodup := by simpa using hnd
    simp only [List.foldl_cons]
    rw [setA_of_not_mem acc e.1 (handleOf child e) (hdisj e (List.mem_cons_self _ _))]
    rw [ih (acc ++ [(e.1, handleOf child e)])]
    · simp
    · intro e' he'
      simp only [List.map_append, List.mem_append, List.map_cons, List.map_nil]
      push_neg
      refine ⟨hdisj e' (List.mem_cons_of_mem _ he'), ?_⟩
      intro hmem
      simp only [List.mem_singleton] at hmem
      exact (List.nodup_cons.1 hnd1).1 (hmem ▸ List.mem_map.2 ⟨e', he', rfl⟩)
    · exact (List.nodup_cons.1 hnd1).2

theorem eligible_names_nodup {min_size_mb : ℚ} {entries : List (String × FTensor)}
    (hnd : (entries.map Prod.fst).Nodup) :
    ((eligibleEntries min_size_mb entries).map Prod.fst).Nodup :=
  List.Nodup.sublist (List.Sublist.map Prod.fst (List.filter_sublist entries)) hnd

theorem regEntryOf_eq_foldl (child : ℕ) (min_size_mb : ℚ)
    (entries : List (String × FTensor)) (hnd : (entries.map Prod.fst).Nodup) :
    (eligibleEntries min_size_mb entries).foldl
      (fun acc e => setA acc e.1 (handleOf child e)) [] =
      regEntryOf child min_size_mb entries := by
  rw [foldl_setA_append child _ [] (by simp) (eligible_names_nodup hnd)]
  rfl

theorem regEntryOf_snd (c : ℕ) (min_size_mb : ℚ) (entries : List (String × FTensor)) :
    (regEntryOf c min_size_mb entries).map Prod.snd =
      (eligibleEntries min_size_mb entries).map (handleOf c) := by
  simp [regEntryOf, List.map_map]

theorem processChildren_spec (min_size_mb : ℚ) (children : List ℕ) (s : Sys)
    (seen : List ℕ) (params : List _QuantizedParam) (s2 : Sys)
    (params2 : List _QuantizedParam)
    (hrun : processChildren min_size_mb s children seen params = .ok (s2, params2))
    (hpre : ∀ c ∈ children, c ∉ seen → s.params_registry c = none → FreshOK s c) :
    (s2.alive = s.alive ∧ s2.quantized_registry = s.quantized_registry ∧
      s2.pre_hooks = s.pre_hooks ∧ s2.post_hooks = s.post_hooks) ∧
    (∀ m, m ∈ seen ∨ m ∉ children →
      s2.attrs m = s.attrs m ∧ s2.params_registry m = s.params_registry m) ∧
    (∀ m e, s.params_registry m = some e →
      s2.attrs m = s.attrs m ∧ s2.params_registry m = some e) ∧
    (∀ c ∈ children, c ∉ seen → s.params_registry c = none →
      s2.params_registry c = some (regEntryOf c min_size_mb (floatEntries (s.attrs c))) ∧
      (∀ e ∈ eligibleEntries min_size_mb (floatEntries (s.attrs c)), ∃ q8 sc mn,
        _quantize_weight_int8 e.2 256 = some (q8, sc, mn) ∧
        lookupA (s2.attrs c) e.1 = none ∧
        lookupA (s2.attrs c) (e.1 ++ "_q8") = some (.q q8 e.2.device) ∧
        lookupA (s2.attrs c) (e.1 ++ "_scale") = some (.f sc) ∧
        lookupA (s2.attrs c) (e.1 ++ "_mean") = some (.f mn)) ∧
      (∀ k, k ∉ touchedKeys min_size_mb (floatEntries (s.attrs c)) →
        lookupA (s2.attrs c) k = lookupA (s.attrs c) k)) ∧
    (∀ p ∈ params2, p ∈ params ∨
      (∃ c, c ∈ children ∧ c ∉ seen ∧ s.params_registry c = none ∧
        p ∈ (regEntryOf c min_size_mb (floatEntries (s.attrs c))).map Prod.snd) ∨
      (∃ c, c ∈ children ∧ c ∉ seen ∧ ∃ e, s.params_registry c = some e ∧
        p ∈ e.map Prod.snd)) ∧
    (∀ p ∈ params, p ∈ params2) ∧
    (∀ c ∈ children, c ∉ seen →
      (∀ e', s.params_registry c = some e' → ∀ p ∈ e'.map Prod.snd, p ∈ params2) ∧
      (s.params_registry c = none →
        ∀ p ∈ (regEntryOf c min_size_mb (floatEntries (s.attrs c))).map Prod.snd,
          p ∈ params2)) := by
  induction children generalizing s seen params s2 params2 with
  | nil =>
    simp only [processChildren, Except.ok.injEq, Prod.mk.injEq] at hrun
    obtain ⟨rfl, rfl⟩ := hrun
    exact ⟨⟨rfl, rfl, rfl, rfl⟩, fun m _ => ⟨rfl, rfl⟩, fun m e he => ⟨rfl, he⟩,
      fun c hc => absurd hc (List.not_mem_nil c),
      fun p hp => Or.inl hp, fun p hp => hp,
      fun c hc => absurd hc (List.not_mem_nil c)⟩
  | cons child rest ih =>
    by_cases hseen : child ∈ seen
    · rw [show processChildren min_size_mb s (child :: rest) seen params =
          processChildren min_size_mb s rest seen params from by
        simp [processChildren, hseen]] at hrun
      have hres := ih s seen params s2 params2 hrun
        (fun c hc hcs hcr => hpre c (List.mem_cons_of_mem _ hc) hcs hcr)
      refine ⟨hres.1, ?_, hres.2.2.1, ?_, ?_, hres.2.2.2.2.2.1, ?_⟩
      · intro m hm
        apply hres.2.1
        rcases hm with h | h
        · exact Or.inl h
        · exact Or.inr (fun hmem => h (List.mem_cons_of_mem _ hmem))
      · intro c hc hcs hcr
        rcases List.mem_cons.1 hc with rfl | hc'
        · exact absurd hseen hcs
        · exact hres.2.2.2.1 c hc' hcs hcr
      · intro p hp
        rcases hres.2.2.2.2.1 p hp with h | h | h
        · exact Or.inl h
        · obtain ⟨c, hc, h2⟩ := h
          exact Or.inr (Or.inl ⟨c, List.mem_cons_of_mem _ hc, h2⟩)
        · obtain ⟨c, hc, h2⟩ := h
          exact Or.inr (Or.inr ⟨c, List.mem_cons_of_mem _ hc, h2⟩)
      · intro c hc hcs
        rcases List.mem_cons.1 hc with rfl | hc'
        · exact absurd hseen hcs
        · exact hres.2.2.2.2.2.2 c hc' hcs
    · cases hregc : s.params_registry child with
      | some entry =>
        rw [show processChildren min_size_mb s (child :: rest) seen params =
            processChildren min_size_mb s rest seen
              (params ++ entry.map (fun kv => kv.2)) from by
          simp [processChildren, hseen, hregc]] at hrun
        have hres := ih s seen (params ++ entry.map (fun kv => kv.2)) s2 params2 hrun
          (fun c hc hcs hcr => hpre c (List.mem_cons_of_mem _ hc) hcs hcr)
        refine ⟨hres.1, ?_, hres.2.2.1, ?_, ?_, ?_, ?_⟩
        · intro m hm
          apply hres.2.1
          rcases hm with h | h
          · exact Or.inl h
          · exact Or.inr (fun hmem => h (List.mem_cons_of_mem _ hmem))
        · intro c hc hcs hcr
          rcases List.mem_cons.1 hc with rfl | hc'
          · rw [hregc] at hcr; cases hcr
          · exact hres.2.2.2.1 c hc' hcs hcr
        · intro p hp
          rcases hres.2.2.2.2.1 p hp with h | h | h
          · rcases List.mem_append.1 h with h' | h'
            · exact Or.inl h'
            · refine Or.inr (Or.inr ⟨child, List.mem_cons_self _ _, hseen, entry, hregc, ?_⟩)
              simpa using h'
          · obtain ⟨c, hc, h2⟩ := h
            exact Or.inr (Or.inl ⟨c, List.mem_cons_of_mem _ hc, h2⟩)
          · obtain ⟨c, hc, h2⟩ := h
            exact Or.inr (Or.inr ⟨c, List.mem_cons_of_mem _ hc, h2⟩)
        · intro p hp
          exact hres.2.2.2.2.2.1 p (List.mem_append_left _ hp)
        · intro c hc hcs
          rcases List.mem_cons.1 hc with rfl | hc'
          · constructor
            · intro e' he' p hp
              rw [hregc] at he'
              injection he' with he'
              subst he'
              apply hres.2.2.2.2.2.1
              apply List.mem_append_right
              simpa using hp
            · intro hnone
              rw [hregc] at hnone; cases hnone
          · exact hres.2.2.2.2.2.2 c hc' hcs
      | none =>
        have hfok := hpre child (List.mem_cons_self _ _) hseen hregc
        rw [show processChildren min_size_mb s (child :: rest) seen params =
            (do
              let (s1, params1, child_params) ←
                processParams child min_size_mb s (floatEntries (s.attrs child)) params []
              processChildren min_size_mb
                { s1 with params_registry := fun m =>
                    if m = child then some child_params else s1.params_registry m }
                rest (child :: seen) params1) from by
          simp [processChildren, hseen, hregc]] at hrun
        cases hpp : processParams child min_size_mb s (floatEntries (s.attrs child)) params [] with
        | error e =>
          rw [hpp] at hrun
          simp at hrun
        | ok trip =>
          obtain ⟨s1, params1, cps⟩ := trip
          rw [hpp] at hrun
          simp only [exceptBind_ok] at hrun
          have hPP := processParams_spec child min_size_mb (floatEntries (s.attrs child))
            s params [] s1 params1 cps hpp hfok.1
            (floatEntries_lookup _ hfok.2.1) hfok.2.2
          have hcps : cps = regEntryOf child min_size_mb (floatEntries (s.attrs child)) := by
            rw [hPP.2.2.2.1, regEntryOf_eq_foldl child _ _ hfok.2.2.1]
          have hparams1 : params1 = params ++
              (eligibleEntries min_size_mb (floatEntries (s.attrs child))).map (handleOf child) :=
            hPP.2.2.1
          obtain ⟨sReg, hsReg⟩ : ∃ x : Sys, ({ s1 with params_registry := fun m =>
              (if m = child then some cps else s1.params_registry m) } : Sys) = x := ⟨_, rfl⟩
          rw [hsReg] at hrun
          have halive' : sReg.alive = s.alive := by rw [← hsReg]; exact hPP.1.1
          have hquant' : sReg.quantized_registry = s.quantized_registry := by
            rw [← hsReg]; exact hPP.1.2.2.1
          have hpreh' : sReg.pre_hooks = s.pre_hooks := by rw [← hsReg]; exact hPP.1.2.2.2.1
          have hposth' : sReg.post_hooks = s.post_hooks := by rw [← hsReg]; exact hPP.1.2.2.2.2
          have hattrchild : sReg.attrs child = s1.attrs child := by rw [← hsReg]
          have hregfun : ∀ m, m ≠ child → sReg.params_registry m = s.params_registry m := by
            intro m hm
            rw [← hsReg]
            show (if m = child then some cps else s1.params_registry m) = s.params_registry m
            rw [if_neg hm]
            exact congrFun hPP.1.2.1 m
          have hattrfun : ∀ m, m ≠ child → sReg.attrs m = s.attrs m := by
            intro m hm
            rw [← hsReg]
            exact hPP.2.1 m hm
          have hchildreg : sReg.params_registry child = some cps := by
            rw [← hsReg]
            show (if child = child then some cps else s1.params_registry child) = some cps
            rw [if_pos rfl]
          have hpre' : ∀ c ∈ rest, c ∉ child :: seen → sReg.params_registry c = none →
              FreshOK sReg c := by
            intro c hc hcs hcr
            have hcchild : c ≠ child := fun h => hcs (h ▸ List.mem_cons_self _ _)
            have hcr0 : s.params_registry c = none := by
              rw [← hregfun c hcchild]
              exact hcr
            have hfc := hpre c (List.mem_cons_of_mem _ hc)
              (fun h => hcs (List.mem_cons_of_mem _ h)) hcr0
            have hattr : sReg.attrs c = s.attrs c := hattrfun c hcchild
            refine ⟨?_, ?_, ?_⟩
            · rw [halive']
              exact hfc.1
            · rw [hattr]; exact hfc.2.1
            · rw [hattr]; exact hfc.2.2
          have hres := ih sReg (child :: seen) params1 s2 params2 hrun hpre'
          refine ⟨?_, ?_, ?_, ?_, ?_, ?_, ?_⟩
          · exact ⟨hres.1.1.trans halive', hres.1.2.1.trans hquant',
              hres.1.2.2.1.trans hpreh', hres.1.2.2.2.trans hposth'⟩
          · intro m hm
            have hmchild : m ≠ child := by
              rcases hm with h | h
              · exact fun he => hseen (he ▸ h)
              · exact fun he => h (he ▸ List.mem_cons_self _ _)
            have hm' : m ∈ child :: seen ∨ m ∉ rest := by
              rcases hm with h | h
              · exact Or.inl (List.mem_cons_of_mem _ h)
              · exact Or.inr (fun hmem => h (List.mem_cons_of_mem _ hmem))
            obtain ⟨ha, hb⟩ := hres.2.1 m hm'
            exact ⟨ha.trans (hattrfun m hmchild), hb.trans (hregfun m hmchild)⟩
          · intro m e he
            have hmchild : m ≠ child := by
              intro h
              rw [h, hregc] at he; cases he
            have hsome : sReg.params_registry m = some e := by
              rw [hregfun m hmchild]; exact he
            obtain ⟨ha, hb⟩ := hres.2.2.1 m e hsome
            exact ⟨ha.trans (hattrfun m hmchild), hb⟩
          · intro c hc hcs hcr
            by_cases hcchild : c = child
            · subst hcchild
              obtain ⟨ha, hb⟩ := hres.2.1 c (Or.inl (List.mem_cons_self _ _))
              refine ⟨?_, ?_, ?_⟩
              · rw [hb, hchildreg, hcps]
              · intro e he
                obtain ⟨q8, sc, mn, h1, h2, h3, h4, h5⟩ := hPP.2.2.2.2.1 e he
                exact ⟨q8, sc, mn, h1, by rw [ha, hattrchild]; exact h2,
                  by rw [ha, hattrchild]; exact h3,
                  by rw [ha, hattrchild]; exact h4,
                  by rw [ha, hattrchild]; exact h5⟩
              · intro k hk
                rw [ha, hattrchild]
                exact hPP.2.2.2.2.2 k hk
            · have hc' : c ∈ rest := by
                rcases List.mem_cons.1 hc with h | h
                · exact absurd h hcchild
                · exact h
              have hcs' : c ∉ child :: seen := by
                intro h
                rcases List.mem_cons.1 h with h' | h'
                · exact hcchild h'
                · exact hcs h'
              have hcr' : sReg.params_registry c = none := by
                rw [hregfun c hcchild]; exact hcr
              have hfacts := hres.2.2.2.1 c hc' hcs' hcr'
              rw [hattrfun c hcchild] at hfacts
              exact hfacts
          · intro p hp
            rcases hres.2.2.2.2.1 p hp with h | h | h
            · rw [hparams1] at h
              rcases List.mem_append.1 h with h' | h'
              · exact Or.inl h'
              · refine Or.inr (Or.inl ⟨child, List.mem_cons_self _ _, hseen, hregc, ?_⟩)
                rw [regEntryOf_snd]
                exact h'
            · obtain ⟨c, hc, hcs', hcr', hmem⟩ := h
              have hcchild : c ≠ child := fun h' => hcs' (h' ▸ List.mem_cons_self _ _)
              refine Or.inr (Or.inl ⟨c, List.mem_cons_of_mem _ hc,
                fun h' => hcs' (List.mem_cons_of_mem _ h'), ?_, ?_⟩)
              · rw [← hregfun c hcchild]; exact hcr'
              · rw [← hattrfun c hcchild]; exact hmem
            · obtain ⟨c, hc, hcs', e, hcr', hmem⟩ := h
              have hcchild : c ≠ child := fun h' => hcs' (h' ▸ List.mem_cons_self _ _)
              refine Or.inr (Or.inr ⟨c, List.mem_cons_of_mem _ hc,
                fun h' => hcs' (List.mem_cons_of_mem _ h'), e, ?_, hmem⟩)
              rw [← hregfun c hcchild]; exact hcr'
          · intro p hp
            apply hres.2.2.2.2.2.1
            rw [hparams1]
            exact List.mem_append_left _ hp
          · intro c hc hcs
            by_cases hcchild : c = child
            · subst hcchild
              constructor
              · intro e' he'
                rw [hregc] at he'; cases he'
              · intro _ p hmem
                apply hres.2.2.2.2.2.1
                rw [hparams1]
                apply List.mem_append_right
                rw [regEntryOf_snd] at hmem
                exact hmem
            · have hc' : c ∈ rest := by
                rcases List.mem_cons.1 hc with h | h
                · exact absurd h hcchild
                · exact h
              have hcs' : c ∉ child :: seen := by
                intro h
                rcases List.mem_cons.1 h with h' | h'
                · exact hcchild h'
                · exact hcs h'
              have hsub := hres.2.2.2.2.2.2 c hc' hcs'
              constructor
              · intro e' he'
                apply hsub.1 e'
                rw [hregfun c hcchild]
                exact he'
              · intro hnone
                have := hsub.2 (by rw [hregfun c hcchild]; exact hnone)
                rw [hattrfun c hcchild] at this
                exact this

/-! ### Compatibility of collected handles and the hook runs -/

/-- Handles whose attribute-key families can never collide: either they
live on different modules, or their name families are fully disjoint. -/
def HandleCompat (p q : _QuantizedParam) : Prop :=
  p._module = q._module → (p.name ≠ q.name ∧
    p.name ≠ q.name ++ "_q8" ∧ p.name ≠ q.name ++ "_scale" ∧ p.name ≠ q.name ++ "_mean" ∧
    q.name ≠ p.name ++ "_q8" ∧ q.name ≠ p.name ++ "_scale" ∧ q.name ≠ p.name ++ "_mean")

theorem ne_append_of_data_ne_nil (a s : String) (hs : s.data ≠ []) : a ≠ a ++ s := by
  intro h
  have hlen := congrArg (fun x => x.data.length) h
  simp only [String.data_append, List.length_append] at hlen
  have : s.data.length = 0 := by omega
  exact hs (List.length_eq_zero.1 this)

theorem name_ne_q8 (a : String) : a ≠ a ++ "_q8" :=
  ne_append_of_data_ne_nil a "_q8" (by simp [show ("_q8" : String).data = ['_','q','8'] from rfl])

theorem name_ne_scale (a : String) : a ≠ a ++ "_scale" :=
  ne_append_of_data_ne_nil a "_scale"
    (by simp [show ("_scale" : String).data = ['_','s','c','a','l','e'] from rfl])

theorem name_ne_mean (a : String) : a ≠ a ++ "_mean" :=
  ne_append_of_data_ne_nil a "_mean"
    (by simp [show ("_mean" : String).data = ['_','m','e','a','n'] from rfl])

/-- All handles created for one freshly processed child are pairwise
compatible, because its weight names are sane. -/
theorem fresh_handles_pairwise (child : ℕ) (min_size_mb : ℚ)
    (entries : List (String × FTensor)) (hsane : SaneNames (entries.map Prod.fst)) :
    List.Pairwise HandleCompat ((eligibleEntries min_size_mb entries).map (handleOf child)) := by
  rw [List.pairwise_map]
  have hpw : List.Pairwise (fun e e' : String × FTensor => e.1 ≠ e'.1)
      (eligibleEntries min_size_mb entries) := by
    have hnd := @eligible_names_nodup min_size_mb entries hsane.1
    rw [List.Nodup, List.pairwise_map] at hnd
    exact hnd
  refine hpw.imp_of_mem ?_
  intro e e' he he' hne _
  have h1 : e.1 ∈ entries.map Prod.fst :=
    List.mem_map.2 ⟨e, eligible_sublist_mem he, rfl⟩
  have h2 : e'.1 ∈ entries.map Prod.fst :=
    List.mem_map.2 ⟨e', eligible_sublist_mem he', rfl⟩
  have hab := hsane.2 e.1 h1 e'.1 h2
  have hba := hsane.2 e'.1 h2 e.1 h1
  exact ⟨hne, hab.1, hab.2.1, hab.2.2, hba.1, hba.2.1, hba.2.2⟩

/-- In a world where every registered module has already been seen (true in
particular when nothing is registered yet), the traversal only creates
fresh handles, and the collected handle list is pairwise compatible. -/
theorem processChildren_pairwise (min_size_mb : ℚ) (children : List ℕ) (s : Sys)
    (seen : List ℕ) (params : List _QuantizedParam) (s2 : Sys)
    (params2 : List _QuantizedParam)
    (hrun : processChildren min_size_mb s children seen params = .ok (s2, params2))
    (hregseen : ∀ c, s.params_registry c ≠ none → c ∈ seen)
    (hfresh : ∀ c ∈ children, c ∉ seen → FreshOK s c)
    (hpw : List.Pairwise HandleCompat params)
    (hmod : ∀ p ∈ params, p._module ∈ seen) :
    List.Pairwise HandleCompat params2 := by
  induction children generalizing s seen params s2 params2 with
  | nil =>
    simp only [processChildren, Except.ok.injEq, Prod.mk.injEq] at hrun
    obtain ⟨rfl, rfl⟩ := hrun
    exact hpw
  | cons child rest ih =>
    by_cases hseen : child ∈ seen
    · rw [show processChildren min_size_mb s (child :: rest) seen params =
          processChildren min_size_mb s rest seen params from by
        simp [processChildren, hseen]] at hrun
      exact ih s seen params s2 params2 hrun hregseen
        (fun c hc hcs => hfresh c (List.mem_cons_of_mem _ hc) hcs) hpw hmod
    · have hregc : s.params_registry child = none := by
        by_contra h
        exact hseen (hregseen child h)
      have hfok := hfresh child (List.mem_cons_self _ _) hseen
      rw [show processChildren min_size_mb s (child :: rest) seen params =
          (do
            let (s1, params1, child_params) ←
              processParams child min_size_mb s (floatEntries (s.attrs child)) params []
            processChildren min_size_mb
              { s1 with params_registry := fun m =>
                  if m = child then some child_params else s1.params_registry m }
              rest (child :: seen) params1) from by
        simp [processChildren, hseen, hregc]] at hrun
      cases hpp : processParams child min_size_mb s (floatEntries (s.attrs child)) params [] with
      | error e =>
        rw [hpp] at hrun
        simp at hrun
      | ok trip =>
        obtain ⟨s1, params1, cps⟩ := trip
        rw [hpp] at hrun
        simp only [exceptBind_ok] at hrun
        have hPP := processParams_spec child min_size_mb (floatEntries (s.attrs child))
          s params [] s1 params1 cps hpp hfok.1
          (floatEntries_lookup _ hfok.2.1) hfok.2.2
        obtain ⟨sReg, hsReg⟩ : ∃ x : Sys, ({ s1 with params_registry := fun m =>
            (if m = child then some cps else s1.params_registry m) } : Sys) = x := ⟨_, rfl⟩
        rw [hsReg] at hrun
        have hregfun : ∀ m, m ≠ child → sReg.params_registry m = s.params_registry m := by
          intro m hm
          rw [← hsReg]
          show (if m = child then some cps else s1.params_registry m) = s.params_registry m
          rw [if_neg hm]
          exact congrFun hPP.1.2.1 m
        have hattrfun : ∀ m, m ≠ child → sReg.attrs m = s.attrs m := by
          intro m hm
          rw [← hsReg]
          exact hPP.2.1 m hm
        have halive' : sReg.alive = s.alive := by rw [← hsReg]; exact hPP.1.1
        -- the handles created for this child
        have hnew : params1 = params ++
            (eligibleEntries min_size_mb (floatEntries (s.attrs child))).map (handleOf child) :=
          hPP.2.2.1
        have hnewmod : ∀ q ∈ (eligibleEntries min_size_mb
            (floatEntries (s.attrs child))).map (handleOf child), q._module = child := by
          intro q hq
          obtain ⟨e, _, rfl⟩ := List.mem_map.1 hq
          rfl
        apply ih sReg (child :: seen) params1 s2 params2 hrun
        · intro c hc
          by_cases hcchild : c = child
          · exact hcchild ▸ List.mem_cons_self _ _
          · rw [hregfun c hcchild] at hc
            exact List.mem_cons_of_mem _ (hregseen c hc)
        · intro c hc hcs
          have hcchild : c ≠ child := fun h => hcs (h ▸ List.mem_cons_self _ _)
          have hfc := hfresh c (List.mem_cons_of_mem _ hc)
            (fun h => hcs (List.mem_cons_of_mem _ h))
          refine ⟨?_, ?_, ?_⟩
          · rw [halive']; exact hfc.1
          · rw [hattrfun c hcchild]; exact hfc.2.1
          · rw [hattrfun c hcchild]; exact hfc.2.2
        · rw [hnew, List.pairwise_append]
          refine ⟨hpw, fresh_handles_pairwise child min_size_mb _ hfok.2.2, ?_⟩
          intro p hp q hq
          intro hmods
          exfalso
          rw [hnewmod q hq] at hmods
          exact hseen (hmods ▸ hmod p hp)
        · intro p hp
          rw [hnew] at hp
          rcases List.mem_append.1 hp with h | h
          · exact List.mem_cons_of_mem _ (hmod p h)
          · rw [hnewmod p h]
            exact List.mem_cons_self _ _

/-- The quantized triple of a handle is stored on its module. -/
def TriplePresent (s : Sys) (p : _QuantizedParam) : Prop :=
  ∃ q8 dev sc mn,
    lookupA (s.attrs p._module) (p.name ++ "_q8") = some (.q q8 dev) ∧
    lookupA (s.attrs p._module) (p.name ++ "_scale") = some (.f sc) ∧
    lookupA (s.attrs p._module) (p.name ++ "_mean") = some (.f mn)

/-- Quiescent state of one handle: module alive, plain attribute absent,
triple present. -/
def Quiet (s : Sys) (p : _QuantizedParam) : Prop :=
  p._module ∈ s.alive ∧ lookupA (s.attrs p._module) p.name = none ∧ TriplePresent s p

theorem lookupA_setAttr_self (s : Sys) (m : ℕ) (n : String) (v : AVal) :
    lookupA ((s.setAttr m n v).attrs m) n = some v := by
  show lookupA (if m = m then setA (s.attrs m) n v else s.attrs m) n = some v
  rw [if_pos rfl, lookupA_setA, if_pos rfl]

theorem lookupA_setAttr_other (s : Sys) (m : ℕ) (n : String) (v : AVal) (m' : ℕ)
    (k : String) (h : ¬(m = m' ∧ n = k)) :
    lookupA ((s.setAttr m n v).attrs m') k = lookupA (s.attrs m') k := by
  show lookupA (if m' = m then setA (s.attrs m) n v else s.attrs m') k = _
  by_cases hm : m' = m
  · subst hm
    have hk : n ≠ k := fun hh => h ⟨rfl, hh⟩
    rw [if_pos rfl, lookupA_setA, if_neg hk]
  · rw [if_neg hm]

theorem lookupA_delAttr_self (s : Sys) (m : ℕ) (n : String) :
    lookupA ((s.delAttr m n).attrs m) n = none := by
  show lookupA (if m = m then delA (s.attrs m) n else s.attrs m) n = none
  rw [if_pos rfl, lookupA_delA, if_pos rfl]

theorem lookupA_delAttr_other (s : Sys) (m : ℕ) (n : String) (m' : ℕ) (k : String)
    (h : ¬(m = m' ∧ n = k)) :
    lookupA ((s.delAttr m n).attrs m') k = lookupA (s.attrs m') k := by
  show lookupA (if m' = m then delA (s.attrs m) n else s.attrs m') k = _
  by_cases hm : m' = m
  · subst hm
    have hk : n ≠ k := fun hh => h ⟨rfl, hh⟩
    rw [if_pos rfl, lookupA_delA, if_neg hk]
  · rw [if_neg hm]

/-- Running the pre-hook body over a quiescent, pairwise-compatible handle
list succeeds and installs, for every handle, the plain attribute
reconstructed by `_unquantize_weight_int8` from its stored triple, leaving
the triple and every other attribute unchanged. -/
theorem runPreHook_spec (P : List _QuantizedParam) : ∀ (s : Sys),
    (∀ p ∈ P, Quiet s p) → List.Pairwise HandleCompat P →
    ∃ s', runPreHook s P = .ok s' ∧
      s'.alive = s.alive ∧ s'.params_registry = s.params_registry ∧
      s'.quantized_registry = s.quantized_registry ∧
      s'.pre_hooks = s.pre_hooks ∧ s'.post_hooks = s.post_hooks ∧
      (∀ p ∈ P, ∃ q8 dev sc mn,
        lookupA (s.attrs p._module) (p.name ++ "_q8") = some (.q q8 dev) ∧
        lookupA (s.attrs p._module) (p.name ++ "_scale") = some (.f sc) ∧
        lookupA (s.attrs p._module) (p.name ++ "_mean") = some (.f mn) ∧
        lookupA (s'.attrs p._module) p.name =
          some (.f (_unquantize_weight_int8 q8 sc mn p.size)) ∧
        lookupA (s'.attrs p._module) (p.name ++ "_q8") = some (.q q8 dev) ∧
        lookupA (s'.attrs p._module) (p.name ++ "_scale") = some (.f sc) ∧
        lookupA (s'.attrs p._module) (p.name ++ "_mean") = some (.f mn)) ∧
      (∀ m k, (∀ p ∈ P, ¬(p._module = m ∧ p.name = k)) →
        lookupA (s'.attrs m) k = lookupA (s.attrs m) k) := by
  induction P with
  | nil =>
    intro s _ _
    exact ⟨s, rfl, rfl, rfl, rfl, rfl, rfl,
      fun p hp => absurd hp (List.not_mem_nil p), fun m k _ => rfl⟩
  | cons p rest ih =>
    intro s hq hpw
    obtain ⟨halive, hnone, q8, dev, sc, mn, hq8, hsc, hmn⟩ := hq p (List.mem_cons_self _ _)
    have hstep := unquantize__absent p s q8 dev sc mn halive hnone hq8 hsc hmn
    have hrun1 : runPreHook s (p :: rest) =
        runPreHook (s.setAttr p._module p.name
          (.f (_unquantize_weight_int8 q8 sc mn p.size))) rest := by
      show (p.unquantize_ s >>= fun x => runPreHook x rest) = _
      rw [hstep]
      simp
    have hcompat := List.pairwise_cons.1 hpw
    have hq' : ∀ q ∈ rest, Quiet (s.setAttr p._module p.name
        (.f (_unquantize_weight_int8 q8 sc mn p.size))) q := by
      intro q hqr
      obtain ⟨ha, hn, q8', dev', sc', mn', h1, h2, h3⟩ := hq q (List.mem_cons_of_mem _ hqr)
      have hcpq := hcompat.1 q hqr
      refine ⟨ha, ?_, q8', dev', sc', mn', ?_, ?_, ?_⟩
      · rw [lookupA_setAttr_other s p._module p.name _ q._module q.name
          (fun hmk => (hcpq hmk.1).1 hmk.2)]
        exact hn
      · rw [lookupA_setAttr_other s p._module p.name _ q._module (q.name ++ "_q8")
          (fun hmk => (hcpq hmk.1).2.1 hmk.2)]
        exact h1
      · rw [lookupA_setAttr_other s p._module p.name _ q._module (q.name ++ "_scale")
          (fun hmk => (hcpq hmk.1).2.2.1 hmk.2)]
        exact h2
      · rw [lookupA_setAttr_other s p._module p.name _ q._module (q.name ++ "_mean")
          (fun hmk => (hcpq hmk.1).2.2.2.1 hmk.2)]
        exact h3
    obtain ⟨s', hs', ha', hb', hc', hd', he', hfacts, huntouched⟩ :=
      ih (s.setAttr p._module p.name (.f (_unquantize_weight_int8 q8 sc mn p.size)))
        hq' hcompat.2
    refine ⟨s', by rw [hrun1]; exact hs', ha', hb', hc', hd', he', ?_, ?_⟩
    · intro q hqmem
      rcases List.mem_cons.1 hqmem with rfl | hqr
      · -- the head handle's own facts
        have hrestfree : ∀ k', (k' = q.name ∨ k' = q.name ++ "_q8" ∨
            k' = q.name ++ "_scale" ∨ k' = q.name ++ "_mean") →
            (∀ r ∈ rest, ¬(r._module = q._module ∧ r.name = k')) := by
          intro k' hk' r hr hmk
          have hcpr := hcompat.1 r hr hmk.1.symm
          rcases hk' with h | h | h | h
          · exact hcpr.1 (hmk.2.trans h).symm
          · exact hcpr.2.2.2.2.1 (hmk.2.trans h)
          · exact hcpr.2.2.2.2.2.1 (hmk.2.trans h)
          · exact hcpr.2.2.2.2.2.2 (hmk.2.trans h)
        refine ⟨q8, dev, sc, mn, hq8, hsc, hmn, ?_, ?_, ?_, ?_⟩
        · rw [huntouched q._module q.name (hrestfree q.name (Or.inl rfl))]
          exact lookupA_setAttr_self s q._module q.name _
        · rw [huntouched q._module (q.name ++ "_q8")
            (hrestfree _ (Or.inr (Or.inl rfl)))]
          rw [lookupA_setAttr_other s q._module q.name _ q._module (q.name ++ "_q8")
            (fun hmk => name_ne_q8 q.name hmk.2)]
          exact hq8
        · rw [huntouched q._module (q.name ++ "_scale")
            (hrestfree _ (Or.inr (Or.inr (Or.inl rfl))))]
          rw [lookupA_setAttr_other s q._module q.name _ q._module (q.name ++ "_scale")
            (fun hmk => name_ne_scale q.name hmk.2)]
          exact hsc
        · rw [huntouched q._module (q.name ++ "_mean")
            (hrestfree _ (Or.inr (Or.inr (Or.inr rfl))))]
          rw [lookupA_setAttr_other s q._module q.name _ q._module (q.name ++ "_mean")
            (fun hmk => name_ne_mean q.name hmk.2)]
          exact hmn
      · -- the tail handles: facts transported through the head's set
        obtain ⟨q8', dev', sc', mn', h1, h2, h3, h4, h5, h6, h7⟩ := hfacts q hqr
        have hcpq := hcompat.1 q hqr
        refine ⟨q8', dev', sc', mn', ?_, ?_, ?_, h4, h5, h6, h7⟩
        · rw [← lookupA_setAttr_other s p._module p.name
            (.f (_unquantize_weight_int8 q8 sc mn p.size)) q._module (q.name ++ "_q8")
            (fun hmk => (hcpq hmk.1).2.1 hmk.2)]
          exact h1
        · rw [← lookupA_setAttr_other s p._module p.name
            (.f (_unquantize_weight_int8 q8 sc mn p.size)) q._module (q.name ++ "_scale")
            (fun hmk => (hcpq hmk.1).2.2.1 hmk.2)]
          exact h2
        · rw [← lookupA_setAttr_other s p._module p.name
            (.f (_unquantize_weight_int8 q8 sc mn p.size)) q._module (q.name ++ "_mean")
            (fun hmk => (hcpq hmk.1).2.2.2.1 hmk.2)]
          exact h3
    · intro m k hfree
      rw [huntouched m k (fun r hr => hfree r (List.mem_cons_of_mem _ hr))]
      exact lookupA_setAttr_other s p._module p.name _ m k
        (hfree p (List.mem_cons_self _ _))

/-- Running the post-hook body over a pairwise-compatible handle list whose
plain attributes are all present succeeds, removes exactly those plain
attributes, and leaves every other attribute unchanged. -/
theorem runPostHook_spec (P : List _QuantizedParam) : ∀ (s : Sys),
    (∀ p ∈ P, p._module ∈ s.alive ∧ (lookupA (s.attrs p._module) p.name).isSome) →
    List.Pairwise HandleCompat P →
    ∃ s', runPostHook s P = .ok s' ∧
      s'.alive = s.alive ∧ s'.params_registry = s.params_registry ∧
      s'.quantized_registry = s.quantized_registry ∧
      s'.pre_hooks = s.pre_hooks ∧ s'.post_hooks = s.post_hooks ∧
      (∀ p ∈ P, lookupA (s'.attrs p._module) p.name = none) ∧
      (∀ m k, (∀ p ∈ P, ¬(p._module = m ∧ p.name = k)) →
        lookupA (s'.attrs m) k = lookupA (s.attrs m) k) := by
  induction P with
  | nil =>
    intro s _ _
    exact ⟨s, rfl, rfl, rfl, rfl, rfl, rfl,
      fun p hp => absurd hp (List.not_mem_nil p), fun m k _ => rfl⟩
  | cons p rest ih =>
    intro s hq hpw
    obtain ⟨halive, hsome⟩ := hq p (List.mem_cons_self _ _)
    obtain ⟨v, hv⟩ := Option.isSome_iff_exists.1 hsome
    have hstep := flush__ok p s v halive hv
    have hrun1 : runPostHook s (p :: rest) =
        runPostHook (s.delAttr p._module p.name) rest := by
      show (p.flush_unquantized_ s >>= fun x => runPostHook x rest) = _
      rw [hstep]
      simp
    have hcompat := List.pairwise_cons.1 hpw
    have hq' : ∀ q ∈ rest, q._module ∈ (s.delAttr p._module p.name).alive ∧
        (lookupA ((s.delAttr p._module p.name).attrs q._module) q.name).isSome := by
      intro q hqr
      obtain ⟨ha, hs'⟩ := hq q (List.mem_cons_of_mem _ hqr)
      have hcpq := hcompat.1 q hqr
      refine ⟨ha, ?_⟩
      rw [lookupA_delAttr_other s p._module p.name q._module q.name
        (fun hmk => (hcpq hmk.1).1 hmk.2)]
      exact hs'
    obtain ⟨s', hs', ha', hb', hc', hd', he', hflushed, huntouched⟩ :=
      ih (s.delAttr p._module p.name) hq' hcompat.2
    refine ⟨s', by rw [hrun1]; exact hs', ha', hb', hc', hd', he', ?_, ?_⟩
    · intro q hqmem
      rcases List.mem_cons.1 hqmem with rfl | hqr
      · rw [huntouched q._module q.name (fun r hr hmk => by
          have hcpr := hcompat.1 r hr hmk.1.symm
          exact hcpr.1 hmk.2.symm)]
        exact lookupA_delAttr_self s q._module q.name
      · exact hflushed q hqr
    · intro m k hfree
      rw [huntouched m k (fun r hr => hfree r (List.mem_cons_of_mem _ hr))]
      exact lookupA_delAttr_other s p._module p.name m k
        (hfree p (List.mem_cons_self _ _))

/-! ### The claims -/

/-- C4.  A later `quantize_module_int8_` call on an already-orchestrated
module (membership in `_quantized_registry`) is a complete no-op: the
returned state is the input state itself — no hooks installed, no handles
created, no registry change — so hook and registry state stay identical to
the state after the first call. -/
theorem quantize_module_second_call_noop (env : ℕ → List ℕ) (s : Sys) (m : ℕ)
    (min_size_mb : ℚ) (block_size : ℕ) (h : m ∈ s.quantized_registry) :
    quantize_module_int8_ env s m min_size_mb block_size = .ok (s, none) := by
  unfold quantize_module_int8_
  rw [if_pos h]

/-- Witness for C4 at a concrete already-orchestrated state. -/
theorem quantize_module_second_call_noop_witness :
    quantize_module_int8_ (fun _ => [])
      ⟨[0], fun _ => [], fun _ => none, [0], fun _ => [], fun _ => []⟩ 0 1 256 =
      .ok (⟨[0], fun _ => [], fun _ => none, [0], fun _ => [], fun _ => []⟩, none) :=
  quantize_module_second_call_noop (fun _ => [])
    ⟨[0], fun _ => [], fun _ => none, [0], fun _ => [], fun _ => []⟩ 0 1 256 (by decide)

/-- A one-module world used to evaluate the orchestrator end to end:
module `0` holds a single 8-byte weight `[[1, 2]]`. -/
def sysC6 : Sys :=
  ⟨[0], fun m => if m = 0 then [("w", .f ⟨[[1, 2]], 0, 4, 0⟩)] else [],
   fun _ => none, [], fun _ => [], fun _ => []⟩

/-- C6 (code-bug evidence).  The first `quantize_module_int8_` call returns
`some module` (the module itself, line 138), but a second call on the
resulting state takes the early-return path, whose bare `return` (line 102)
yields `None` — not the module — so chaining `m = quantize_module(m)`
breaks on a repeat call. -/
theorem quantize_module_second_call_returns_none :
    (quantize_module_int8_ (fun _ => [0]) sysC6 0 0 256).map (fun x => x.2) =
      .ok (some 0) ∧
    ((quantize_module_int8_ (fun _ => [0]) sysC6 0 0 256).bind
      (fun x => quantize_module_int8_ (fun _ => [0]) x.1 0 0 256)).map (fun x => x.2) =
      .ok none := by
  constructor
  · with_unfolding_all rfl
  · with_unfolding_all rfl

/-- C7.  Every handle operation that dereferences the owning module —
`quantize_`, `unquantize_`, `flush_unquantized_` and the dtype / device /
mean / scale / q8 accessors — fails with the "module gone" `RuntimeError`
once the owning module has been destroyed; none of them returns a stale
value. -/
theorem handle_ops_fail_when_module_gone (s : Sys) (p : _QuantizedParam) (bs : ℕ)
    (hdead : p._module ∉ s.alive) :
    p.quantize_ s bs = .error "Module is gone but we are still here." ∧
    p.unquantize_ s = .error "Module is gone but we are still here." ∧
    p.flush_unquantized_ s = .error "Module is gone but we are still here." ∧
    p.dtypeGet s = .error "Module is gone but we are still here." ∧
    p.deviceGet s = .error "Module is gone but we are still here." ∧
    p.meanT s = .error "Module is gone but we are still here." ∧
    p.scaleT s = .error "Module is gone but we are still here." ∧
    p.q8T s = .error "Module is gone but we are still here." := by
  have hmg : p.moduleGet s = .error "Module is gone but we are still here." := by
    unfold _QuantizedParam.moduleGet
    rw [if_neg hdead]
  refine ⟨?_, ?_, ?_, ?_, ?_, ?_, ?_, ?_⟩ <;>
    simp [_QuantizedParam.quantize_, _QuantizedParam.unquantize_,
      _QuantizedParam.flush_unquantized_, _QuantizedParam.dtypeGet,
      _QuantizedParam.deviceGet, _QuantizedParam.meanT, _QuantizedParam.scaleT,
      _QuantizedParam.q8T, _QuantizedParam.unquantized_value, hmg]

/-- A state in which module `0` has been destroyed. -/
def sysDead : Sys := ⟨[], fun _ => [], fun _ => none, [], fun _ => [], fun _ => []⟩

/-- Witness for C7 on a concrete destroyed module. -/
theorem handle_ops_fail_when_module_gone_witness :
    _QuantizedParam.quantize_ ⟨0, "w", (1, 1)⟩ sysDead 256 =
      .error "Module is gone but we are still here." ∧
    _QuantizedParam.unquantize_ ⟨0, "w", (1, 1)⟩ sysDead =
      .error "Module is gone but we are still here." ∧
    _QuantizedParam.flush_unquantized_ ⟨0, "w", (1, 1)⟩ sysDead =
      .error "Module is gone but we are still here." ∧
    _QuantizedParam.dtypeGet ⟨0, "w", (1, 1)⟩ sysDead =
      .error "Module is gone but we are still here." ∧
    _QuantizedParam.deviceGet ⟨0, "w", (1, 1)⟩ sysDead =
      .error "Module is gone but we are still here." ∧
    _QuantizedParam.meanT ⟨0, "w", (1, 1)⟩ sysDead =
      .error "Module is gone but we are still here." ∧
    _QuantizedParam.scaleT ⟨0, "w", (1, 1)⟩ sysDead =
      .error "Module is gone but we are still here." ∧
    _QuantizedParam.q8T ⟨0, "w", (1, 1)⟩ sysDead =
      .error "Module is gone but we are still here." :=
  handle_ops_fail_when_module_gone sysDead ⟨0, "w", (1, 1)⟩ 256 (by decide)

/-- C9.  `get_size_dtype_device` answers from the live tensor when the
attribute is present; when absent, from the module's registry handle
(stored size, dtype/device read through the handle from the stored mean);
and when neither applies it re-raises the `AttributeError`. -/
theorem get_size_dtype_device_spec (s : Sys) (m : ℕ) (n : String) :
    (∀ v, lookupA (s.attrs m) n = some v →
      get_size_dtype_device s m n = .ok (v.asize, v.adtype, v.adevice)) ∧
    (∀ ps p d dev, lookupA (s.attrs m) n = none → s.params_registry m = some ps →
      lookupA ps n = some p → p.dtypeGet s = .ok d → p.deviceGet s = .ok dev →
      get_size_dtype_device s m n = .ok (p.size, d, dev)) ∧
    (lookupA (s.attrs m) n = none → s.params_registry m = none →
      get_size_dtype_device s m n = .error "AttributeError") ∧
    (∀ ps, lookupA (s.attrs m) n = none → s.params_registry m = some ps →
      lookupA ps n = none → get_size_dtype_device s m n = .error "AttributeError") := by
  refine ⟨?_, ?_, ?_, ?_⟩
  · intro v hv
    unfold get_size_dtype_device
    simp [hv]
  · intro ps p d dev hnone hreg hp hd hdev
    unfold get_size_dtype_device
    simp [hnone, hreg, hp, hd, hdev]
  · intro hnone hreg
    unfold get_size_dtype_device
    simp [hnone, hreg]
  · intro ps hnone hreg hp
    unfold get_size_dtype_device
    simp [hnone, hreg, hp]

/-- A state exercising all three behaviours of `get_size_dtype_device`:
module `0` holds a live weight `w`; module `1` holds only the triple of a
flushed weight `v` together with its registry handle. -/
def sysC9 : Sys :=
  ⟨[0, 1],
   fun m => if m = 0 then [("w", .f ⟨[[5]], 7, 4, 9⟩)]
     else if m = 1 then [("v_mean", .f ⟨[[2]], 3, 4, 6⟩)] else [],
   fun m => if m = 1 then some [("v", ⟨1, "v", (2, 3)⟩)] else none,
   [], fun _ => [], fun _ => []⟩

/-- Witness for C9: the live-attribute path, the registry path and both
error paths at concrete inputs. -/
theorem get_size_dtype_device_spec_witness :
    get_size_dtype_device sysC9 0 "w" = .ok ((1, 1), 7, 9) ∧
    get_size_dtype_device sysC9 1 "v" = .ok ((2, 3), 3, 6) ∧
    get_size_dtype_device sysC9 0 "z" = .error "AttributeError" ∧
    get_size_dtype_device sysC9 1 "z" = .error "AttributeError" := by
  refine ⟨?_, ?_, ?_, ?_⟩
  · exact (get_size_dtype_device_spec sysC9 0 "w").1 (.f ⟨[[5]], 7, 4, 9⟩)
      (by with_unfolding_all rfl)
  · exact (get_size_dtype_device_spec sysC9 1 "v").2.1 [("v", ⟨1, "v", (2, 3)⟩)]
      ⟨1, "v", (2, 3)⟩ 3 6 (by with_unfolding_all rfl) (by with_unfolding_all rfl)
      (by with_unfolding_all rfl) (by with_unfolding_all rfl) (by with_unfolding_all rfl)
  · exact (get_size_dtype_device_spec sysC9 0 "z").2.2.1 (by with_unfolding_all rfl)
      (by with_unfolding_all rfl)
  · exact (get_size_dtype_device_spec sysC9 1 "z").2.2.2 [("v", ⟨1, "v", (2, 3)⟩)]
      (by with_unfolding_all rfl) (by with_unfolding_all rfl) (by with_unfolding_all rfl)

/-- Inversion of the non-early-return path of `quantize_module_int8_`. -/
theorem quantize_module_inv (env : ℕ → List ℕ) (s : Sys) (root : ℕ)
    (min_size_mb : ℚ) (block_size : ℕ) (s1 : Sys) (r : Option ℕ)
    (hrun : quantize_module_int8_ env s root min_size_mb block_size = .ok (s1, r))
    (hroot : root ∉ s.quantized_registry) :
    ∃ s2 ps, processChildren min_size_mb s (env root) [] [] = .ok (s2, ps) ∧
      r = some root ∧
      s1.attrs = s2.attrs ∧ s1.alive = s2.alive ∧
      s1.params_registry = s2.params_registry ∧
      s1.quantized_registry = s2.quantized_registry ++ [root] ∧
      (∀ m, s1.pre_hooks m =
        if m = root then s2.pre_hooks m ++ [ps] else s2.pre_hooks m) ∧
      (∀ m, s1.post_hooks m =
        if m = root then s2.post_hooks m ++ [ps] else s2.post_hooks m) := by
  unfold quantize_module_int8_ at hrun
  rw [if_neg hroot] at hrun
  cases hpc : processChildren min_size_mb s (env root) [] [] with
  | error e =>
    rw [hpc] at hrun
    simp at hrun
  | ok pr =>
    obtain ⟨s2, ps⟩ := pr
    rw [hpc] at hrun
    simp only [exceptBind_ok, Except.ok.injEq, Prod.mk.injEq] at hrun
    obtain ⟨h1, h2⟩ := hrun
    subst h1
    subst h2
    exact ⟨s2, ps, rfl, rfl, rfl, rfl, rfl, rfl, fun m => rfl, fun m => rfl⟩

theorem lookupA_map_pair {β : Type} (f : String × FTensor → β) :
    ∀ (l : List (String × FTensor)), ((l.map Prod.fst).Nodup) →
    ∀ e ∈ l, lookupA (l.map (fun x => (x.1, f x))) e.1 = some (f e) := by
  intro l
  induction l with
  | nil => intro _ e he; cases he
  | cons a rest ih =>
    intro hnd e he
    have hnd1 : (a.1 :: rest.map Prod.fst).Nodup := by simpa using hnd
    rcases List.mem_cons.1 he with rfl | he'
    · simp [lookupA]
    · have hne : a.1 ≠ e.1 := by
        intro h
        exact (List.nodup_cons.1 hnd1).1 (h ▸ List.mem_map.2 ⟨e, he', rfl⟩)
      simp only [List.map_cons, lookupA, if_neg hne]
      exact ih (List.nodup_cons.1 hnd1).2 e he'

theorem mem_eligible_of_le {min_size_mb : ℚ} {entries : List (String × FTensor)}
    {e : String × FTensor} (he : e ∈ entries) (hge : min_size_mb ≤ entrySizeMB e.2) :
    e ∈ eligibleEntries min_size_mb entries := by
  rw [eligibleEntries, List.mem_filter]
  exact ⟨he, by simp [not_lt.2 hge]⟩

theorem not_mem_eligible_of_lt {min_size_mb : ℚ} {entries : List (String × FTensor)}
    {e : String × FTensor} (he : e ∈ eligibleEntries min_size_mb entries) :
    ¬ entrySizeMB e.2 < min_size_mb := by
  rw [eligibleEntries, List.mem_filter] at he
  simpa using he.2

theorem lookupA_regEntryOf_none (c : ℕ) (min_size_mb : ℚ)
    (entries : List (String × FTensor)) (hnd : (entries.map Prod.fst).Nodup)
    (e : String × FTensor) (he : e ∈ entries)
    (hsmall : entrySizeMB e.2 < min_size_mb) :
    lookupA (regEntryOf c min_size_mb entries) e.1 = none := by
  apply lookupA_eq_none_of_not_mem
  intro hmem
  rw [show (regEntryOf c min_size_mb entries).map Prod.fst =
      (eligibleEntries min_size_mb entries).map Prod.fst from by
    simp [regEntryOf, List.map_map]] at hmem
  obtain ⟨e', he', heq⟩ := List.mem_map.1 hmem
  have hee : e' = e :=
    List.inj_on_of_nodup_map hnd (eligible_sublist_mem he') he heq
  rw [hee] at he'
  exact not_mem_eligible_of_lt he' hsmall

theorem skipped_keys_untouched (min_size_mb : ℚ) (entries : List (String × FTensor))
    (hsane : SaneNames (entries.map Prod.fst)) (e : String × FTensor)
    (he : e ∈ entries) (hsmall : entrySizeMB e.2 < min_size_mb) :
    ∀ k, (k = e.1 ∨ k = e.1 ++ "_q8" ∨ k = e.1 ++ "_scale" ∨ k = e.1 ++ "_mean") →
      k ∉ touchedKeys min_size_mb entries := by
  intro k hk hmem
  rw [mem_touchedKeys_iff] at hmem
  obtain ⟨e', he', hcase⟩ := hmem
  have he'e := eligible_sublist_mem he'
  have h1 : e.1 ∈ entries.map Prod.fst := List.mem_map.2 ⟨e, he, rfl⟩
  have h2 : e'.1 ∈ entries.map Prod.fst := List.mem_map.2 ⟨e', he'e, rfl⟩
  have hne : e.1 ≠ e'.1 := by
    intro h
    have hee : e = e' := List.inj_on_of_nodup_map hsane.1 he he'e h
    rw [← hee] at he'
    exact not_mem_eligible_of_lt he' hsmall
  have hab := hsane.2 e.1 h1 e'.1 h2
  have hba := hsane.2 e'.1 h2 e.1 h1
  have hdisj := family_disjoint e.1 e'.1 hne hab.1 hab.2.1 hab.2.2
    hba.1 hba.2.1 hba.2.2 k (by
      simp only [List.mem_cons, List.not_mem_nil, or_false]
      exact hk)
  rcases hcase with h | h | h | h
  · exact hdisj e'.1 (by simp) h
  · exact hdisj (e'.1 ++ "_q8") (by simp) h
  · exact hdisj (e'.1 ++ "_scale") (by simp) h
  · exact hdisj (e'.1 ++ "_mean") (by simp) h

/-- C8.  On a fresh single-module orchestration, `quantize_module_int8_`
quantizes exactly the non-recursive float parameters whose size in
megabytes (`numel * itemsize / 1e6`) is at least `min_size_mb`: a weight at
the boundary is quantized (plain attribute flushed, triple installed,
handle registered under its name), while a weight strictly below keeps its
plain attribute untouched, never gains `_q8`/`_scale`/`_mean` attributes,
and gets no handle. -/
theorem size_filter_spec (s : Sys) (root : ℕ) (min_size_mb : ℚ) (block_size : ℕ)
    (s1 : Sys) (r : Option ℕ)
    (hrun : quantize_module_int8_ (fun _ => [root]) s root min_size_mb block_size =
      .ok (s1, r))
    (hroot : root ∉ s.quantized_registry)
    (hreg : s.params_registry root = none)
    (hfok : FreshOK s root) :
    ∀ e ∈ floatEntries (s.attrs root),
      (min_size_mb ≤ entrySizeMB e.2 →
        lookupA (s1.attrs root) e.1 = none ∧
        (∃ q8 sc mn, _quantize_weight_int8 e.2 256 = some (q8, sc, mn) ∧
          lookupA (s1.attrs root) (e.1 ++ "_q8") = some (.q q8 e.2.device) ∧
          lookupA (s1.attrs root) (e.1 ++ "_scale") = some (.f sc) ∧
          lookupA (s1.attrs root) (e.1 ++ "_mean") = some (.f mn)) ∧
        (∃ entry, s1.params_registry root = some entry ∧
          lookupA entry e.1 = some (handleOf root e))) ∧
      (entrySizeMB e.2 < min_size_mb →
        lookupA (s1.attrs root) e.1 = some (.f e.2) ∧
        lookupA (s1.attrs root) (e.1 ++ "_q8") = lookupA (s.attrs root) (e.1 ++ "_q8") ∧
        lookupA (s1.attrs root) (e.1 ++ "_scale") =
          lookupA (s.attrs root) (e.1 ++ "_scale") ∧
        lookupA (s1.attrs root) (e.1 ++ "_mean") =
          lookupA (s.attrs root) (e.1 ++ "_mean") ∧
        (∃ entry, s1.params_registry root = some entry ∧
          lookupA entry e.1 = none)) := by
  obtain ⟨s2, ps, hpc, hr, hattrs, halive, hregeq, hqreg, hpre, hpost⟩ :=
    quantize_module_inv _ s root min_size_mb block_size s1 r hrun hroot
  have hPC := processChildren_spec min_size_mb [root] s [] [] s2 ps hpc
    (fun c hc _ hcr => by
      rcases List.mem_cons.1 hc with rfl | hc'
      · exact hfok
      · cases hc')
  have hfacts := hPC.2.2.2.1 root (List.mem_cons_self _ _)
    (List.not_mem_nil root) hreg
  intro e he
  constructor
  · intro hge
    have helig := mem_eligible_of_le he hge
    obtain ⟨q8, sc, mn, h1, h2, h3, h4, h5⟩ := hfacts.2.1 e helig
    refine ⟨by rw [hattrs]; exact h2, ⟨q8, sc, mn, h1, by rw [hattrs]; exact h3,
      by rw [hattrs]; exact h4, by rw [hattrs]; exact h5⟩,
      ⟨regEntryOf root min_size_mb (floatEntries (s.attrs root)),
        by rw [hregeq]; exact hfacts.1, ?_⟩⟩
    unfold regEntryOf
    exact lookupA_map_pair (handleOf root) _ (eligible_names_nodup hfok.2.2.1) e helig
  · intro hlt
    have hfree := skipped_keys_untouched min_size_mb _ hfok.2.2 e he hlt
    refine ⟨?_, ?_, ?_, ?_,
      ⟨regEntryOf root min_size_mb (floatEntries (s.attrs root)),
        by rw [hregeq]; exact hfacts.1,
        lookupA_regEntryOf_none root min_size_mb _ hfok.2.2.1 e he hlt⟩⟩
    · rw [hattrs, hfacts.2.2 e.1 (hfree e.1 (Or.inl rfl))]
      exact floatEntries_lookup _ hfok.2.1 e he
    · rw [hattrs]
      exact hfacts.2.2 _ (hfree _ (Or.inr (Or.inl rfl)))
    · rw [hattrs]
      exact hfacts.2.2 _ (hfree _ (Or.inr (Or.inr (Or.inl rfl))))
    · rw [hattrs]
      exact hfacts.2.2 _ (hfree _ (Or.inr (Or.inr (Or.inr rfl))))

/-- A module with one weight exactly at the size boundary (`2*4 = 8` bytes,
`min_size_mb = 8/10⁶`) and one strictly below it (`1` byte). -/
def sysC8 : Sys :=
  ⟨[0], fun m => if m = 0 then
      [("w", .f ⟨[[1, 2]], 0, 4, 0⟩), ("b", .f ⟨[[5]], 0, 1, 0⟩)] else [],
   fun _ => none, [], fun _ => [], fun _ => []⟩

/-- The state after orchestrating `sysC8`'s module. -/
def outC8 : Sys × Option ℕ :=
  ((quantize_module_int8_ (fun _ => [0]) sysC8 0 (8 / 1000000) 256).toOption).getD
    (sysC8, none)

/-- Witness for C8: the boundary weight `w` is quantized, the small weight
`b` is left untouched. -/
theorem size_filter_spec_witness :
    (lookupA ((outC8.1).attrs 0) "w" = none ∧
      (∃ q8 sc mn,
        _quantize_weight_int8 ⟨[[1, 2]], 0, 4, 0⟩ 256 = some (q8, sc, mn) ∧
        lookupA ((outC8.1).attrs 0) ("w" ++ "_q8") =
          some (.q q8 (FTensor.device ⟨[[1, 2]], 0, 4, 0⟩)) ∧
        lookupA ((outC8.1).attrs 0) ("w" ++ "_scale") = some (.f sc) ∧
        lookupA ((outC8.1).attrs 0) ("w" ++ "_mean") = some (.f mn)) ∧
      (∃ entry, (outC8.1).params_registry 0 = some entry ∧
        lookupA entry "w" = some (handleOf 0 ("w", ⟨[[1, 2]], 0, 4, 0⟩)))) ∧
    (lookupA ((outC8.1).attrs 0) "b" = some (.f ⟨[[5]], 0, 1, 0⟩) ∧
      lookupA ((outC8.1).attrs 0) ("b" ++ "_q8") =
        lookupA (sysC8.attrs 0) ("b" ++ "_q8") ∧
      lookupA ((outC8.1).attrs 0) ("b" ++ "_scale") =
        lookupA (sysC8.attrs 0) ("b" ++ "_scale") ∧
      lookupA ((outC8.1).attrs 0) ("b" ++ "_mean") =
        lookupA (sysC8.attrs 0) ("b" ++ "_mean") ∧
      (∃ entry, (outC8.1).params_registry 0 = some entry ∧
        lookupA entry "b" = none)) := by
  have H := size_filter_spec sysC8 0 (8 / 1000000) 256 outC8.1 outC8.2
    (by with_unfolding_all rfl) (by decide) rfl
    (by with_unfolding_all decide)
  exact ⟨H ("w", ⟨[[1, 2]], 0, 4, 0⟩) (by with_unfolding_all decide) |>.1
      (by with_unfolding_all decide),
    H ("b", ⟨[[5]], 0, 1, 0⟩) (by with_unfolding_all decide) |>.2
      (by with_unfolding_all decide)⟩

/-- C10.  Every submodule newly visited by an orchestration receives a
registry entry — the possibly *empty* map `regEntryOf` when none of its
weights met the threshold — and any later `quantize_module_int8_` call
(in particular one with a smaller `min_size_mb`) leaves both the attribute
map and the registry entry of every registered module unchanged: its
previously-skipped weights are never quantized. -/
theorem registry_entry_created_and_never_replaced
    (env1 env2 : ℕ → List ℕ) (s : Sys) (root1 root2 : ℕ)
    (min1 min2 : ℚ) (bs1 bs2 : ℕ)
    (s1 : Sys) (r1 : Option ℕ) (s2 : Sys) (r2 : Option ℕ)
    (hrun1 : quantize_module_int8_ env1 s root1 min1 bs1 = .ok (s1, r1))
    (hroot1 : root1 ∉ s.quantized_registry)
    (hpre1 : ∀ c ∈ env1 root1, s.params_registry c = none → FreshOK s c)
    (hrun2 : quantize_module_int8_ env2 s1 root2 min2 bs2 = .ok (s2, r2))
    (hpre2 : ∀ c ∈ env2 root2, s1.params_registry c = none → FreshOK s1 c) :
    (∀ c ∈ env1 root1, s.params_registry c = none →
      s1.params_registry c = some (regEntryOf c min1 (floatEntries (s.attrs c)))) ∧
    (∀ m e, s1.params_registry m = some e →
      s2.attrs m = s1.attrs m ∧ s2.params_registry m = some e) := by
  obtain ⟨sa, psa, hpc1, _, hattrs1, _, hreg1, _, _, _⟩ :=
    quantize_module_inv env1 s root1 min1 bs1 s1 r1 hrun1 hroot1
  have hPC1 := processChildren_spec min1 (env1 root1) s [] [] sa psa hpc1
    (fun c hc _ hcr => hpre1 c hc hcr)
  constructor
  · intro c hc hcr
    rw [hreg1]
    exact (hPC1.2.2.2.1 c hc (List.not_mem_nil c) hcr).1
  · intro m e he
    by_cases hroot2 : root2 ∈ s1.quantized_registry
    · rw [show quantize_module_int8_ env2 s1 root2 min2 bs2 = .ok (s1, none) from by
        unfold quantize_module_int8_; rw [if_pos hroot2]] at hrun2
      injection hrun2 with h
      injection h with h1 h2
      rw [← h1]
      exact ⟨rfl, he⟩
    · obtain ⟨sb, psb, hpc2, _, hattrs2, _, hreg2, _, _, _⟩ :=
        quantize_module_inv env2 s1 root2 min2 bs2 s2 r2 hrun2 hroot2
      have hPC2 := processChildren_spec min2 (env2 root2) s1 [] [] sb psb hpc2
        (fun c hc _ hcr => hpre2 c hc hcr)
      obtain ⟨ha, hb⟩ := hPC2.2.2.1 m e he
      rw [hattrs2, hreg2]
      exact ⟨ha, hb⟩

/-- A module whose single 4-byte weight is below the first call's 1 MB
threshold: the first orchestration registers an *empty* entry for it. -/
def sysC10 : Sys :=
  ⟨[0, 1], fun m => if m = 0 then [("w", .f ⟨[[1]], 0, 4, 0⟩)] else [],
   fun _ => none, [], fun _ => [], fun _ => []⟩

/-- The state after orchestrating module `0` with `min_size_mb = 1`. -/
def outC10 : Sys × Option ℕ :=
  ((quantize_module_int8_ (fun _ => [0]) sysC10 0 1 256).toOption).getD (sysC10, none)

/-- The state after then orchestrating root `1` (whose traversal reaches
module `0`) with `min_size_mb = 0`, which would quantize `w` if the
registry entry were not reused. -/
def outC10b : Sys × Option ℕ :=
  ((quantize_module_int8_ (fun _ => [0, 1]) outC10.1 1 0 256).toOption).getD
    (outC10.1, none)

/-- Witness for C10: after the first call module `0` carries the empty
registry entry, and the second, lower-threshold call leaves its attributes
and entry untouched. -/
theorem registry_entry_created_and_never_replaced_witness :
    (outC10.1).params_registry 0 =
      some (regEntryOf 0 1 (floatEntries (sysC10.attrs 0))) ∧
    (outC10b.1).attrs 0 = (outC10.1).attrs 0 ∧
    (outC10b.1).params_registry 0 =
      some (regEntryOf 0 1 (floatEntries (sysC10.attrs 0))) := by
  have H := registry_entry_created_and_never_replaced
    (fun _ => [0]) (fun _ => [0, 1]) sysC10 0 1 1 0 256 256
    outC10.1 outC10.2 outC10b.1 outC10b.2
    (by with_unfolding_all rfl) (by decide)
    (by with_unfolding_all decide)
    (by with_unfolding_all rfl)
    (by with_unfolding_all decide)
  have hentry := H.1 0 (by decide) rfl
  have hkeep := H.2 0 (regEntryOf 0 1 (floatEntries (sysC10.attrs 0))) hentry
  exact ⟨hentry, hkeep.1, hkeep.2⟩

/-- C5.  Within one `quantize_module_int8_` traversal each distinct
submodule is processed exactly once even when the traversal sequence
reaches it several times (shared submodules): a module already present in
the registry keeps its attributes and entry unchanged and has its existing
handles reused into the installed hooks, and a fresh module — however often
it occurs in the sequence — ends with exactly the single triple obtained by
quantizing each eligible weight's *original* value once; no weight is ever
re-quantized from already-lossy data. -/
theorem traversal_dedup_and_reuse (env : ℕ → List ℕ) (s : Sys) (root : ℕ)
    (min_size_mb : ℚ) (block_size : ℕ) (s1 : Sys) (r : Option ℕ)
    (hrun : quantize_module_int8_ env s root min_size_mb block_size = .ok (s1, r))
    (hroot : root ∉ s.quantized_registry)
    (hpre : ∀ c ∈ env root, s.params_registry c = none → FreshOK s c) :
    (∀ c ∈ env root, ∀ e', s.params_registry c = some e' →
      s1.attrs c = s.attrs c ∧ s1.params_registry c = some e' ∧
      (∃ ps, s1.pre_hooks root = s.pre_hooks root ++ [ps] ∧
        s1.post_hooks root = s.post_hooks root ++ [ps] ∧
        ∀ p ∈ e'.map Prod.snd, p ∈ ps)) ∧
    (∀ c ∈ env root, s.params_registry c = none →
      s1.params_registry c =
        some (regEntryOf c min_size_mb (floatEntries (s.attrs c))) ∧
      (∀ e ∈ eligibleEntries min_size_mb (floatEntries (s.attrs c)), ∃ q8 sc mn,
        _quantize_weight_int8 e.2 256 = some (q8, sc, mn) ∧
        lookupA (s1.attrs c) e.1 = none ∧
        lookupA (s1.attrs c) (e.1 ++ "_q8") = some (.q q8 e.2.device) ∧
        lookupA (s1.attrs c) (e.1 ++ "_scale") = some (.f sc) ∧
        lookupA (s1.attrs c) (e.1 ++ "_mean") = some (.f mn))) := by
  obtain ⟨s2, ps, hpc, hr, hattrs, halive, hregeq, hqreg, hpreh, hposth⟩ :=
    quantize_module_inv env s root min_size_mb block_size s1 r hrun hroot
  have hPC := processChildren_spec min_size_mb (env root) s [] [] s2 ps hpc
    (fun c hc _ hcr => hpre c hc hcr)
  have hPCframe := hPC.1
  constructor
  · intro c hc e' he'
    obtain ⟨ha, hb⟩ := hPC.2.2.1 c e' he'
    refine ⟨by rw [hattrs]; exact ha, by rw [hregeq]; exact hb, ps, ?_, ?_, ?_⟩
    · rw [hpreh root, if_pos rfl, hPCframe.2.2.1]
    · rw [hposth root, if_pos rfl, hPCframe.2.2.2]
    · intro p hp
      exact (hPC.2.2.2.2.2.2 c hc (List.not_mem_nil c)).1 e' he' p hp
  · intro c hc hcr
    have hfacts := hPC.2.2.2.1 c hc (List.not_mem_nil c) hcr
    refine ⟨by rw [hregeq]; exact hfacts.1, ?_⟩
    intro e he
    obtain ⟨q8, sc, mn, h1, h2, h3, h4, h5⟩ := hfacts.2.1 e he
    exact ⟨q8, sc, mn, h1, by rw [hattrs]; exact h2, by rw [hattrs]; exact h3,
      by rw [hattrs]; exact h4, by rw [hattrs]; exact h5⟩

/-- A world with a shared submodule: module `1` (holding one eligible
weight) is reachable twice from root `0`, so the traversal sequence lists
it twice. -/
def sysC5 : Sys :=
  ⟨[0, 1], fun m => if m = 1 then [("w", .f ⟨[[1, 2]], 0, 4, 0⟩)] else [],
   fun _ => none, [], fun _ => [], fun _ => []⟩

/-- The state after orchestrating root `0` whose traversal reaches the
shared module `1` twice. -/
def outC5 : Sys × Option ℕ :=
  ((quantize_module_int8_ (fun _ => [0, 1, 1]) sysC5 0 0 256).toOption).getD
    (sysC5, none)

/-- Witness for C5: despite module `1` appearing twice in the traversal it
ends with exactly the one triple quantized from its original weight. -/
theorem traversal_dedup_and_reuse_witness :
    (outC5.1).params_registry 1 =
      some (regEntryOf 1 0 (floatEntries (sysC5.attrs 1))) ∧
    (∃ q8 sc mn,
      _quantize_weight_int8 ⟨[[1, 2]], 0, 4, 0⟩ 256 = some (q8, sc, mn) ∧
      lookupA ((outC5.1).attrs 1) "w" = none ∧
      lookupA ((outC5.1).attrs 1) ("w" ++ "_q8") =
        some (.q q8 (FTensor.device ⟨[[1, 2]], 0, 4, 0⟩)) ∧
      lookupA ((outC5.1).attrs 1) ("w" ++ "_scale") = some (.f sc) ∧
      lookupA ((outC5.1).attrs 1) ("w" ++ "_mean") = some (.f mn)) := by
  have H := traversal_dedup_and_reuse (fun _ => [0, 1, 1]) sysC5 0 0 256
    outC5.1 outC5.2 (by with_unfolding_all rfl) (by decide)
    (by with_unfolding_all decide)
  have h2 := H.2 1 (by decide) rfl
  exact ⟨h2.1, h2.2 ("w", ⟨[[1, 2]], 0, 4, 0⟩) (by with_unfolding_all decide)⟩

/-- C3.  After `quantize_module_int8_` has orchestrated a fresh module
tree, whenever no invocation of the root is in progress every collected
weight exists only in quantized form: the plain attribute is absent and the
`_q8`/`_scale`/`_mean` triple present.  Running the installed pre-hook
(start of an invocation) succeeds and — only then — materializes each plain
attribute as exactly the dequantization of its stored triple, alongside the
triple; running the installed post-hook (end of the invocation) flushes
them all again and restores every attribute of every module to its
quiescent value. -/
theorem orchestration_lifecycle_invariant (env : ℕ → List ℕ) (s : Sys) (root : ℕ)
    (min_size_mb : ℚ) (block_size : ℕ) (s1 : Sys) (r : Option ℕ)
    (hrun : quantize_module_int8_ env s root min_size_mb block_size = .ok (s1, r))
    (hroot : root ∉ s.quantized_registry)
    (hreg : ∀ c, s.params_registry c = none)
    (hfresh : ∀ c ∈ env root, FreshOK s c) :
    ∃ ps, s1.pre_hooks root = s.pre_hooks root ++ [ps] ∧
      s1.post_hooks root = s.post_hooks root ++ [ps] ∧
      (∀ p ∈ ps, Quiet s1 p) ∧
      (∃ s2, runPreHook s1 ps = .ok s2 ∧
        (∀ p ∈ ps, ∃ q8 dev sc mn,
          lookupA (s2.attrs p._module) (p.name ++ "_q8") = some (.q q8 dev) ∧
          lookupA (s2.attrs p._module) (p.name ++ "_scale") = some (.f sc) ∧
          lookupA (s2.attrs p._module) (p.name ++ "_mean") = some (.f mn) ∧
          lookupA (s2.attrs p._module) p.name =
            some (.f (_unquantize_weight_int8 q8 sc mn p.size))) ∧
        (∃ s3, runPostHook s2 ps = .ok s3 ∧
          (∀ m k, lookupA (s3.attrs m) k = lookupA (s1.attrs m) k))) := by
  obtain ⟨sPC, ps, hpc, hr, hattrs, halive, hregeq, hqreg, hpreh, hposth⟩ :=
    quantize_module_inv env s root min_size_mb block_size s1 r hrun hroot
  have hPC := processChildren_spec min_size_mb (env root) s [] [] sPC ps hpc
    (fun c hc _ hcr => hfresh c hc)
  have hPW := processChildren_pairwise min_size_mb (env root) s [] [] sPC ps hpc
    (fun c hcne => absurd (hreg c) hcne)
    (fun c hc _ => hfresh c hc)
    List.Pairwise.nil
    (fun p hp => absurd hp (List.not_mem_nil p))
  have hquiet : ∀ p ∈ ps, Quiet s1 p := by
    intro p hp
    rcases hPC.2.2.2.2.1 p hp with h | h | h
    · exact absurd h (List.not_mem_nil p)
    · obtain ⟨c, hc, _, hcr, hmem⟩ := h
      rw [regEntryOf_snd] at hmem
      obtain ⟨e, he, rfl⟩ := List.mem_map.1 hmem
      have hfacts := hPC.2.2.2.1 c hc (List.not_mem_nil c) hcr
      obtain ⟨q8, sc, mn, h1, h2, h3, h4, h5⟩ := hfacts.2.1 e he
      refine ⟨?_, ?_, q8, e.2.device, sc, mn, ?_, ?_, ?_⟩
      · rw [halive, hPC.1.1]
        exact (hfresh c hc).1
      · rw [hattrs]; exact h2
      · rw [hattrs]; exact h3
      · rw [hattrs]; exact h4
      · rw [hattrs]; exact h5
    · obtain ⟨c, _, _, e, hce, _⟩ := h
      rw [hreg c] at hce
      cases hce
  refine ⟨ps, by rw [hpreh root, if_pos rfl, hPC.1.2.2.1],
    by rw [hposth root, if_pos rfl, hPC.1.2.2.2], hquiet, ?_⟩
  obtain ⟨s2, hs2, ha2, hb2, hc2, hd2, he2, hfacts2, huntouched2⟩ :=
    runPreHook_spec ps s1 hquiet hPW
  refine ⟨s2, hs2, ?_, ?_⟩
  · intro p hp
    obtain ⟨q8, dev, sc, mn, _, _, _, h4, h5, h6, h7⟩ := hfacts2 p hp
    exact ⟨q8, dev, sc, mn, h5, h6, h7, h4⟩
  · have hpost_hyp : ∀ p ∈ ps, p._module ∈ s2.alive ∧
        (lookupA (s2.attrs p._module) p.name).isSome := by
      intro p hp
      obtain ⟨_, _, _, _, _, _, _, h4, _, _, _⟩ := hfacts2 p hp
      refine ⟨?_, ?_⟩
      · rw [ha2]
        exact (hquiet p hp).1
      · rw [h4]
        rfl
    obtain ⟨s3, hs3, ha3, hb3, hc3, hd3, he3, hflushed3, huntouched3⟩ :=
      runPostHook_spec ps s2 hpost_hyp hPW
    refine ⟨s3, hs3, ?_⟩
    intro m k
    by_cases hex : ∃ p, p ∈ ps ∧ p._module = m ∧ p.name = k
    · obtain ⟨p, hp, hm, hk⟩ := hex
      rw [← hm, ← hk, hflushed3 p hp]
      exact ((hquiet p hp).2.1).symm
    · have hfree : ∀ p ∈ ps, ¬(p._module = m ∧ p.name = k) :=
        fun p hp hconj => hex ⟨p, hp, hconj⟩
      rw [huntouched3 m k hfree, huntouched2 m k hfree]

/-- A fresh one-module world for exercising the whole lifecycle. -/
def sysC3 : Sys :=
  ⟨[0], fun m => if m = 0 then [("w", .f ⟨[[1, 2]], 0, 4, 0⟩)] else [],
   fun _ => none, [], fun _ => [], fun _ => []⟩

/-- The state after orchestrating `sysC3`'s module. -/
def outC3 : Sys × Option ℕ :=
  ((quantize_module_int8_ (fun _ => [0]) sysC3 0 0 256).toOption).getD (sysC3, none)

/-- Witness for C3 on a concrete orchestration run. -/
theorem orchestration_lifecycle_invariant_witness :
    ∃ ps, (outC3.1).pre_hooks 0 = sysC3.pre_hooks 0 ++ [ps] ∧
      (outC3.1).post_hooks 0 = sysC3.post_hooks 0 ++ [ps] ∧
      (∀ p ∈ ps, Quiet (outC3.1) p) ∧
      (∃ s2, runPreHook (outC3.1) ps = .ok s2 ∧
        (∀ p ∈ ps, ∃ q8 dev sc mn,
          lookupA (s2.attrs p._module) (p.name ++ "_q8") = some (.q q8 dev) ∧
          lookupA (s2.attrs p._module) (p.name ++ "_scale") = some (.f sc) ∧
          lookupA (s2.attrs p._module) (p.name ++ "_mean") = some (.f mn) ∧
          lookupA (s2.attrs p._module) p.name =
            some (.f (_unquantize_weight_int8 q8 sc mn p.size))) ∧
        (∃ s3, runPostHook s2 ps = .ok s3 ∧
          (∀ m k, lookupA (s3.attrs m) k = lookupA ((outC3.1).attrs m) k))) :=
  orchestration_lifecycle_invariant (fun _ => [0]) sysC3 0 0 256 outC3.1 outC3.2
    (by with_unfolding_all rfl) (by decide) (fun c => rfl)
    (by with_unfolding_all decide)

end Quant
